import Mathlib

/-
  Verification of the waveform-processing core of Nuclex.OpusTranscoder.Native.

  The C++ sources under Source/Audio and Source/Services are shallowly embedded:
  32-bit float samples become exact rationals, interleaved sample buffers become
  lists of rationals indexed by frame * channelCount + channel, and the few
  places where float division can blow up (division by a zero peak or quotient)
  are modelled by an explicit value type FVal with infinities and NaN, mirroring
  IEEE-754 division semantics on exact inputs.

  Each model definition notes the C++ function it embeds.  Out-of-bounds
  pointer accesses performed by the C++ (undefined behaviour) are modelled as
  explicit out-of-bounds outcomes of the corresponding functions.
-/

set_option autoImplicit false
set_option maxRecDepth 8000

/-- Linear amplitude at -0.001 dBFS; the constant MinusOneThousandthDecibel
defined identically in Normalizer.cpp, HalfwaveTucker.cpp and the tests. -/
def MinusOneThousandthDecibel : ℚ :=
  0.99988487737246860830993605587529673614422529030613405900998412734419982883669222875138231966

/-- Absolute value computed the way std::abs on floats behaves on exact inputs. -/
def fabs (q : ℚ) : ℚ := if q < 0 then -q else q

/-- Result of a float computation: a finite value, a signed infinity, or NaN.
Only division can produce the non-finite values in the modelled code. -/
inductive FVal where
  | fin (q : ℚ)
  | posInf
  | negInf
  | nan

/-- IEEE-754 float division on exact rational inputs: division by zero gives
a signed infinity for a nonzero numerator and NaN for zero over zero. -/
def fdivQ (x d : ℚ) : FVal :=
  if d = 0 then (if 0 < x then FVal.posInf else if x < 0 then FVal.negInf else FVal.nan)
  else FVal.fin (x / d)

/-- Division of an FVal by a rational, extending fdivQ; non-finite numerators
propagate with the sign of the divisor and NaN stays NaN. -/
def ffdiv (v : FVal) (d : ℚ) : FVal :=
  match v with
  | FVal.fin q => fdivQ q d
  | FVal.posInf => if d < 0 then FVal.negInf else FVal.posInf
  | FVal.negInf => if d < 0 then FVal.posInf else FVal.negInf
  | FVal.nan => FVal.nan

/-! ### List access helpers

The interleaved buffers are lists of rationals; nth and setN are plain indexed
read and write with a default, mirroring raw pointer reads and writes. -/

/-- Indexed read with default, modelling a pointer read at a known-good index. -/
def nth {α : Type} (d : α) : List α → Nat → α
  | [], _ => d
  | a :: _, 0 => a
  | _ :: l, n + 1 => nth d l n

/-- Indexed write, modelling a pointer write at a known-good index. -/
def setN {α : Type} : List α → Nat → α → List α
  | [], _, _ => []
  | _ :: l, 0, v => v :: l
  | a :: l, n + 1, v => a :: setN l n v

/-- The list of g 0, g 1, ..., g (n-1) starting at offset i. -/
def tabFrom {α : Type} (g : Nat → α) : Nat → Nat → List α
  | _, 0 => []
  | i, n + 1 => g i :: tabFrom g (i + 1) n

/-- The list of g 0, g 1, ..., g (n-1). -/
def tabulate {α : Type} (g : Nat → α) (n : Nat) : List α := tabFrom g 0 n

theorem length_setN {α : Type} : ∀ (l : List α) (n : Nat) (v : α), (setN l n v).length = l.length
  | [], _, _ => rfl
  | _ :: l, 0, v => rfl
  | a :: l, n + 1, v => by simp [setN, length_setN l n v]

theorem nth_setN_self {α : Type} (d : α) :
    ∀ (l : List α) (n : Nat) (v : α), n < l.length → nth d (setN l n v) n = v
  | [], n, v, h => absurd h (by simp)
  | _ :: l, 0, v, _ => rfl
  | a :: l, n + 1, v, h => nth_setN_self d l n v (by simpa using h)

theorem nth_setN_other {α : Type} (d : α) :
    ∀ (l : List α) (n m : Nat) (v : α), m ≠ n → nth d (setN l n v) m = nth d l m
  | [], _, _, _, _ => rfl
  | _ :: l, 0, 0, v, h => absurd rfl h
  | _ :: l, 0, m + 1, v, _ => rfl
  | a :: l, n + 1, 0, v, _ => rfl
  | a :: l, n + 1, m + 1, v, h =>
      nth_setN_other d l n m v (fun he => h (by rw [he]))

theorem length_tabFrom {α : Type} (g : Nat → α) : ∀ (n i : Nat), (tabFrom g i n).length = n
  | 0, _ => rfl
  | n + 1, i => by simp [tabFrom, length_tabFrom g n (i + 1)]

theorem length_tabulate {α : Type} (g : Nat → α) (n : Nat) : (tabulate g n).length = n :=
  length_tabFrom g n 0

theorem nth_tabFrom {α : Type} (d : α) (g : Nat → α) :
    ∀ (n i j : Nat), j < n → nth d (tabFrom g i n) j = g (i + j)
  | 0, _, j, h => absurd h (by simp)
  | n + 1, i, 0, _ => rfl
  | n + 1, i, j + 1, h => by
      have := nth_tabFrom d g n (i + 1) j (by omega)
      simpa [tabFrom, nth, Nat.add_assoc, Nat.add_comm 1 j] using this

theorem nth_tabulate {α : Type} (d : α) (g : Nat → α) (n j : Nat) (h : j < n) :
    nth d (tabulate g n) j = g j := by
  simpa using nth_tabFrom d g n 0 j h

theorem mem_tabFrom {α : Type} (g : Nat → α) :
    ∀ (n i : Nat) (s : α), s ∈ tabFrom g i n ↔ ∃ j, j < n ∧ s = g (i + j)
  | 0, i, s => by simp [tabFrom]
  | n + 1, i, s => by
      simp only [tabFrom, List.mem_cons, mem_tabFrom g n (i + 1)]
      constructor
      · rintro (h | ⟨j, hj, hs⟩)
        · exact ⟨0, by omega, by simpa using h⟩
        · exact ⟨j + 1, by omega, by rw [hs]; ring_nf⟩
      · rintro ⟨j, hj, hs⟩
        cases j with
        | zero => exact Or.inl (by simpa using hs)
        | succ j => exact Or.inr ⟨j, by omega, by rw [hs]; ring_nf⟩

theorem mem_tabulate {α : Type} (g : Nat → α) (n : Nat) (s : α) :
    s ∈ tabulate g n ↔ ∃ j, j < n ∧ s = g j := by
  simpa using mem_tabFrom g n 0 s

theorem nth_map_fin : ∀ (l : List ℚ) (i : Nat), i < l.length →
    nth FVal.nan (l.map FVal.fin) i = FVal.fin (nth 0 l i)
  | [], i, h => absurd h (by simp)
  | q :: l, 0, _ => rfl
  | q :: l, i + 1, h => nth_map_fin l i (by simpa using h)

/-! ### Peak folding

The running-maximum accumulator pattern used by the normalizer scan and
the detector re-scan: start from an accumulator and replace it whenever a
strictly larger value is seen. -/

/-- Running maximum with initial accumulator, as the C++ loops compute it. -/
def peakFold (l : List ℚ) (acc : ℚ) : ℚ :=
  l.foldl (fun a s => if a < s then s else a) acc

theorem acc_le_peakFold : ∀ (l : List ℚ) (acc : ℚ), acc ≤ peakFold l acc
  | [], acc => le_refl acc
  | s :: l, acc => by
      by_cases h : acc < s
      · simp only [peakFold, List.foldl, if_pos h]
        exact le_trans (le_of_lt h) (acc_le_peakFold l s)
      · simp only [peakFold, List.foldl, if_neg h]
        exact acc_le_peakFold l acc

theorem mem_le_peakFold : ∀ (l : List ℚ) (acc s : ℚ), s ∈ l → s ≤ peakFold l acc
  | [], _, _, h => absurd h (by simp)
  | x :: l, acc, s, h => by
      rcases List.mem_cons.mp h with he | hm
      · subst he
        by_cases hx : acc < s
        · simp only [peakFold, List.foldl, if_pos hx]
          exact acc_le_peakFold l s
        · simp only [peakFold, List.foldl, if_neg hx]
          exact le_trans (le_of_not_lt hx) (acc_le_peakFold l acc)
      · by_cases hx : acc < x
        · simp only [peakFold, List.foldl, if_pos hx]
          exact mem_le_peakFold l x s hm
        · simp only [peakFold, List.foldl, if_neg hx]
          exact mem_le_peakFold l acc s hm

theorem peakFold_eq_acc_or_mem : ∀ (l : List ℚ) (acc : ℚ),
    peakFold l acc = acc ∨ peakFold l acc ∈ l
  | [], acc => Or.inl rfl
  | x :: l, acc => by
      by_cases hx : acc < x
      · simp only [peakFold, List.foldl, if_pos hx]
        rcases peakFold_eq_acc_or_mem l x with h | h
        · exact Or.inr (List.mem_cons.mpr (Or.inl h))
        · exact Or.inr (List.mem_cons.mpr (Or.inr h))
      · simp only [peakFold, List.foldl, if_neg hx]
        rcases peakFold_eq_acc_or_mem l acc with h | h
        · exact Or.inl h
        · exact Or.inr (List.mem_cons.mpr (Or.inr h))

/-! ### Data model

Track, Channel and ClippingHalfwave from Source/Audio.  The Channel record
used throughout the pipeline (placement plus clipping metadata; the sample
data lives in the shared interleaved buffer of the Track) and the initial
value 0 of the volume quotient are modelled from the spec, because the
checked-in Channel.h and ClippingHalfwave.h are stale variants that do not
match the fields the .cpp files use; the spec defines volume_quotient = 0 as
the never-scaled state, which is what HalfwaveTucker.cpp tests against. -/

inductive ChannelPlacement where
  | frontLeft
  | frontRight
  | frontCenter
  | lowFrequencyEffects
  | backLeft
  | backRight
  | sideLeft
  | sideRight
  | backCenter
  | unknown
deriving DecidableEq

/-- A clipping half-wave record; see ClippingHalfwave.h and spec section 3. -/
structure ClippingHalfwave where
  priorZeroCrossingIndex : Nat
  peakIndex : Nat
  nextZeroCrossingIndex : Nat
  peakAmplitude : ℚ
  volumeQuotient : ℚ
  ineffectiveIterationCount : Nat

/-- Modelled from the spec: the half-wave record as freshly constructed by the
detector, with ineffective_iteration_count 0 (as in the checked-in
constructor) and volume_quotient 0, the never-scaled state of spec section 3;
the constructor declaration matching the fields used by HalfwaveTucker.cpp is
absent from the sources. -/
def detectedHalfwave (startIndex peakIdx endIndex : Nat) (peakAmplitude : ℚ) :
    ClippingHalfwave :=
  ⟨startIndex, peakIdx, endIndex, peakAmplitude, 0, 0⟩

/-- Modelled from the spec: a channel record carrying its interleave position,
spatial placement and clipping half-wave list (spec section 3). -/
structure Channel where
  inputOrder : Nat
  placement : ChannelPlacement
  clippingHalfwaves : List ClippingHalfwave

def defaultChannel : Channel := ⟨0, ChannelPlacement.unknown, []⟩

/-- An audio track: interleaved sample buffer, sample rate, channels; Track.h. -/
structure Track where
  samples : List ℚ
  sampleRate : Nat
  channels : List Channel

/-- The samples of one channel in frame order, read from the interleaved
buffer at index frame * channelCount + channel, exactly the stride walk the
C++ loops perform starting at Samples.data() + channelIndex. -/
def chSamples (buf : List ℚ) (cc ch frames : Nat) : List ℚ :=
  tabulate (fun f => nth 0 buf (f * cc + ch)) frames

/-! ### Clipping detector: FindClippingHalfwaves

Embeds ClippingDetector::FindClippingHalfwaves (ClippingDetector.cpp lines
190-276).  The per-channel loop state carries the same variables the C++
function keeps locally. -/

structure DetState where
  wasBelowZero : Bool
  wasClipping : Bool
  clippingPeak : ℚ
  clippingPeakIndex : Nat
  zeroCrossingIndex : Nat
  waves : List ClippingHalfwave

/-- Loop state after reading sample 0, as initialised by the C++ code. -/
def detInit (s0 : ℚ) : DetState :=
  { wasBelowZero := if s0 < 0 then true else false
    wasClipping := if 1 < fabs s0 then true else false
    clippingPeak := s0
    clippingPeakIndex := 0
    zeroCrossingIndex := 0
    waves := [] }

/-- One iteration of the detection loop body at frame i with sample s. -/
def detStep (st : DetState) (i : Nat) (s : ℚ) : DetState :=
  let isBelowZero : Bool := if s < 0 then true else false
  let st1 :=
    if st.wasBelowZero ≠ isBelowZero then
      if st.wasClipping then
        { st with
            waves := st.waves ++
              [detectedHalfwave st.zeroCrossingIndex st.clippingPeakIndex i st.clippingPeak]
            wasClipping := false
            clippingPeak := 0
            zeroCrossingIndex := i
            wasBelowZero := isBelowZero }
      else
        { st with zeroCrossingIndex := i, wasBelowZero := isBelowZero }
    else st
  if 1 < fabs s then
    if st1.clippingPeak < fabs s then
      { st1 with wasClipping := true, clippingPeak := fabs s, clippingPeakIndex := i }
    else
      { st1 with wasClipping := true }
  else st1

/-- The detection loop over frames 1 .. frameCount-1. -/
def detGo (st : DetState) : Nat → List ℚ → DetState
  | _, [] => st
  | i, s :: rest => detGo (detStep st i s) (i + 1) rest

/-- Clipping half-waves of one channel, including the final half-wave emitted
when the buffer ends while was_clipping is still set (its end index is the
frame count, the exclusive buffer end). -/
def findChannelClippingHalfwaves (l : List ℚ) : List ClippingHalfwave :=
  match l with
  | [] => []
  | s0 :: rest =>
    let st := detGo (detInit s0) 1 rest
    st.waves ++
      (if st.wasClipping then
        [detectedHalfwave st.zeroCrossingIndex st.clippingPeakIndex l.length st.clippingPeak]
      else [])

/-- ClippingDetector::FindClippingHalfwaves: rebuild every channel's clipping
half-wave list from the track's interleaved sample buffer. -/
def FindClippingHalfwaves (t : Track) : Track :=
  let cc := t.channels.length
  let frames := t.samples.length / cc
  { t with
      channels := tabulate (fun ci =>
        { nth defaultChannel t.channels ci with
            clippingHalfwaves := findChannelClippingHalfwaves (chSamples t.samples cc ci frames) }) cc }

/-! ### Normalizer

Embeds Normalizer::Normalize (Normalizer.cpp lines 42-135).  Stage 1 scans
every channel keeping two running maxima of the signed sample values, one
over LFE channels and one over all others.  Both maxima are then multiplied
by MinusOneThousandthDecibel, and stage 2 divides every sample of a group by
the scaled maximum of its group, unless volume decrease is disallowed and
the scaled maximum is not below 1.  The stage 2 loops write sample
frame * channelCount + channel for every frame below frameCount; the
tabulate below applies the same rule at every such index. -/

/-- Stage 1 of Normalizer::Normalize: fold the channels, updating the bass
peak for LFE channels and the main peak for all others. -/
def scanChannels (buf : List ℚ) (cc frames : Nat) : List Channel → Nat → ℚ × ℚ → ℚ × ℚ
  | [], _, acc => acc
  | ch :: rest, i, acc =>
      if ch.placement = ChannelPlacement.lowFrequencyEffects then
        scanChannels buf cc frames rest (i + 1) (acc.1, peakFold (chSamples buf cc i frames) acc.2)
      else
        scanChannels buf cc frames rest (i + 1) (peakFold (chSamples buf cc i frames) acc.1, acc.2)

/-- The two measured peaks of a track: first the non-LFE peak, then the LFE
peak, both starting from 0 as in the C++ code. -/
def scanPeaks (t : Track) : ℚ × ℚ :=
  scanChannels t.samples t.channels.length (t.samples.length / t.channels.length) t.channels 0 (0, 0)

/-- Whether the channel at the given interleave index is the LFE channel. -/
def isLFEChannel (t : Track) (ci : Nat) : Prop :=
  (nth defaultChannel t.channels ci).placement = ChannelPlacement.lowFrequencyEffects

instance (t : Track) (ci : Nat) : Decidable (isLFEChannel t ci) := by
  unfold isLFEChannel; infer_instance

/-- The stage 2 write rule of Normalizer::Normalize at interleaved index i:
the loops touch exactly the indices frame * channelCount + channel with
frame below frameCount, and divide the sample there by the scaled peak of
the group of channel i mod channelCount when the guard of that group passes. -/
def normalizeRule (t : Track) (allowVolumeDecrease : Bool) (i : Nat) : FVal :=
  if i < (t.samples.length / t.channels.length) * t.channels.length then
    if isLFEChannel t (i % t.channels.length) then
      if allowVolumeDecrease = true ∨ (scanPeaks t).2 * MinusOneThousandthDecibel < 1 then
        fdivQ (nth 0 t.samples i) ((scanPeaks t).2 * MinusOneThousandthDecibel)
      else FVal.fin (nth 0 t.samples i)
    else
      if allowVolumeDecrease = true ∨ (scanPeaks t).1 * MinusOneThousandthDecibel < 1 then
        fdivQ (nth 0 t.samples i) ((scanPeaks t).1 * MinusOneThousandthDecibel)
      else FVal.fin (nth 0 t.samples i)
  else FVal.fin (nth 0 t.samples i)

/-- Normalizer::Normalize: the sample buffer after the call.  Division by the
scaled group peak is float division, so a zero peak produces non-finite
values; those are captured by the FVal codomain. -/
def Normalize (t : Track) (allowVolumeDecrease : Bool) : List FVal :=
  tabulate (normalizeRule t allowVolumeDecrease) t.samples.length

theorem MinusOneThousandthDecibel_pos : 0 < MinusOneThousandthDecibel := by
  norm_num [MinusOneThousandthDecibel]

theorem nth_eq_get {α : Type} (d : α) :
    ∀ (l : List α) (n : Nat) (h : n < l.length), nth d l n = l.get ⟨n, h⟩
  | [], n, h => absurd h (by simp)
  | a :: l, 0, _ => rfl
  | a :: l, n + 1, h => nth_eq_get d l n (by simpa using h)

theorem scanChannels_le (buf : List ℚ) (cc frames : Nat) :
    ∀ (l : List Channel) (i0 : Nat) (acc : ℚ × ℚ),
      acc.1 ≤ (scanChannels buf cc frames l i0 acc).1 ∧
      acc.2 ≤ (scanChannels buf cc frames l i0 acc).2
  | [], _, acc => ⟨le_refl _, le_refl _⟩
  | ch :: rest, i0, acc => by
      by_cases h : ch.placement = ChannelPlacement.lowFrequencyEffects
      · simp only [scanChannels, if_pos h]
        refine ⟨(scanChannels_le buf cc frames rest (i0 + 1) _).1, ?_⟩
        exact le_trans (acc_le_peakFold _ _) (scanChannels_le buf cc frames rest (i0 + 1) _).2
      · simp only [scanChannels, if_neg h]
        refine ⟨?_, (scanChannels_le buf cc frames rest (i0 + 1) _).2⟩
        exact le_trans (acc_le_peakFold _ _) (scanChannels_le buf cc frames rest (i0 + 1) _).1

theorem scanChannels_fst_cases (buf : List ℚ) (cc frames : Nat) :
    ∀ (l : List Channel) (i0 : Nat) (acc : ℚ × ℚ),
      (scanChannels buf cc frames l i0 acc).1 = acc.1 ∨
      ∃ j, ∃ hj : j < l.length,
        ¬ (l.get ⟨j, hj⟩).placement = ChannelPlacement.lowFrequencyEffects ∧
        (scanChannels buf cc frames l i0 acc).1 ∈ chSamples buf cc (i0 + j) frames
  | [], _, acc => Or.inl rfl
  | ch :: rest, i0, acc => by
      by_cases h : ch.placement = ChannelPlacement.lowFrequencyEffects
      · simp only [scanChannels, if_pos h]
        rcases scanChannels_fst_cases buf cc frames rest (i0 + 1) _ with he | ⟨j, hj, hnl, hm⟩
        · exact Or.inl he
        · refine Or.inr ⟨j + 1, by simpa using Nat.succ_lt_succ hj, by simpa using hnl, ?_⟩
          have hre : i0 + 1 + j = i0 + (j + 1) := by omega
          rwa [hre] at hm
      · simp only [scanChannels, if_neg h]
        rcases scanChannels_fst_cases buf cc frames rest (i0 + 1) _ with he | ⟨j, hj, hnl, hm⟩
        · rw [he]
          rcases peakFold_eq_acc_or_mem (chSamples buf cc i0 frames) acc.1 with h2 | h2
        
          · exact Or.inl h2
          · exact Or.inr ⟨0, by simp, by simpa using h, by simpa using h2⟩
        · refine Or.inr ⟨j + 1, by simpa using Nat.succ_lt_succ hj, by simpa using hnl, ?_⟩
          have hre : i0 + 1 + j = i0 + (j + 1) := by omega
          rwa [hre] at hm

theorem scanChannels_snd_cases (buf : List ℚ) (cc frames : Nat) :
    ∀ (l : List Channel) (i0 : Nat) (acc : ℚ × ℚ),
      (scanChannels buf cc frames l i0 acc).2 = acc.2 ∨
      ∃ j, ∃ hj : j < l.length,
        (l.get ⟨j, hj⟩).placement = ChannelPlacement.lowFrequencyEffects ∧
        (scanChannels buf cc frames l i0 acc).2 ∈ chSamples buf cc (i0 + j) frames
  | [], _, acc => Or.inl rfl
  | ch :: rest, i0, acc => by
      by_cases h : ch.placement = ChannelPlacement.lowFrequencyEffects
      · simp only [scanChannels, if_pos h]
        rcases scanChannels_snd_cases buf cc frames rest (i0 + 1) _ with he | ⟨j, hj, hl, hm⟩
        · rw [he]
          rcases peakFold_eq_acc_or_mem (chSamples buf cc i0 frames) acc.2 with h2 | h2
          · exact Or.inl h2
          · exact Or.inr ⟨0, by simp, by simpa using h, by simpa using h2⟩
        · refine Or.inr ⟨j + 1, by simpa using Nat.succ_lt_succ hj, by simpa using hl, ?_⟩
          have hre : i0 + 1 + j = i0 + (j + 1) := by omega
          rwa [hre] at hm
      · simp only [scanChannels, if_neg h]
        rcases scanChannels_snd_cases buf cc frames rest (i0 + 1) _ with he | ⟨j, hj, hl, hm⟩
        · exact Or.inl he
        · refine Or.inr ⟨j + 1, by simpa using Nat.succ_lt_succ hj, by simpa using hl, ?_⟩
          have hre : i0 + 1 + j = i0 + (j + 1) := by omega
          rwa [hre] at hm

theorem scanChannels_fst_ub (buf : List ℚ) (cc frames : Nat) :
    ∀ (l : List Channel) (i0 : Nat) (acc : ℚ × ℚ) (j : Nat) (hj : j < l.length),
      ¬ (l.get ⟨j, hj⟩).placement = ChannelPlacement.lowFrequencyEffects →
      ∀ s ∈ chSamples buf cc (i0 + j) frames, s ≤ (scanChannels buf cc frames l i0 acc).1
  | [], _, _, j, hj, _, _, _ => absurd hj (by simp)
  | ch :: rest, i0, acc, 0, hj, hnl, s, hs => by
      have h : ¬ ch.placement = ChannelPlacement.lowFrequencyEffects := by simpa using hnl
      simp only [scanChannels, if_neg h]
      refine le_trans (mem_le_peakFold _ acc.1 s (by simpa using hs)) ?_
      exact (scanChannels_le buf cc frames rest (i0 + 1) _).1
  | ch :: rest, i0, acc, j + 1, hj, hnl, s, hs => by
      have hj2 : j < rest.length := by simpa using hj
      have hre : i0 + (j + 1) = i0 + 1 + j := by omega
      rw [hre] at hs
      by_cases h : ch.placement = ChannelPlacement.lowFrequencyEffects
      · simp only [scanChannels, if_pos h]
        exact scanChannels_fst_ub buf cc frames rest (i0 + 1) _ j hj2 (by simpa using hnl) s hs
      · simp only [scanChannels, if_neg h]
        exact scanChannels_fst_ub buf cc frames rest (i0 + 1) _ j hj2 (by simpa using hnl) s hs

theorem scanChannels_snd_ub (buf : List ℚ) (cc frames : Nat) :
    ∀ (l : List Channel) (i0 : Nat) (acc : ℚ × ℚ) (j : Nat) (hj : j < l.length),
      (l.get ⟨j, hj⟩).placement = ChannelPlacement.lowFrequencyEffects →
      ∀ s ∈ chSamples buf cc (i0 + j) frames, s ≤ (scanChannels buf cc frames l i0 acc).2
  | [], _, _, j, hj, _, _, _ => absurd hj (by simp)
  | ch :: rest, i0, acc, 0, hj, hl, s, hs => by
      have h : ch.placement = ChannelPlacement.lowFrequencyEffects := by simpa using hl
      simp only [scanChannels, if_pos h]
      refine le_trans (mem_le_peakFold _ acc.2 s (by simpa using hs)) ?_
      exact (scanChannels_le buf cc frames rest (i0 + 1) _).2
  | ch :: rest, i0, acc, j + 1, hj, hl, s, hs => by
      have hj2 : j < rest.length := by simpa using hj
      have hre : i0 + (j + 1) = i0 + 1 + j := by omega
      rw [hre] at hs
      by_cases h : ch.placement = ChannelPlacement.lowFrequencyEffects
      · simp only [scanChannels, if_pos h]
        exact scanChannels_snd_ub buf cc frames rest (i0 + 1) _ j hj2 (by simpa using hl) s hs
      · simp only [scanChannels, if_neg h]
        exact scanChannels_snd_ub buf cc frames rest (i0 + 1) _ j hj2 (by simpa using hl) s hs

theorem nth_Normalize (t : Track) (allow : Bool) (i : Nat) (hi : i < t.samples.length) :
    nth FVal.nan (Normalize t allow) i = normalizeRule t allow i := by
  simp only [Normalize]
  exact nth_tabulate _ _ _ i hi

/-- C1 (amended): with p the measured non-LFE peak (the running maximum of the
signed samples, started at 0) and q the LFE peak, when p is positive and the
group guard passes (volume decrease allowed, or the scaled peak p times
MinusOneThousandthDecibel below 1), Normalizer::Normalize divides every
non-LFE sample by p times MinusOneThousandthDecibel, so the maximum of the
non-LFE output samples equals 1 / MinusOneThousandthDecibel, the linear
amplitude at +0.001 dBFS, slightly above full scale; the same holds
independently for the LFE group with q. -/
theorem c1_amended (t : Track) (allow : Bool)
    (hcc : 0 < t.channels.length)
    (hdiv : t.channels.length ∣ t.samples.length) :
    (0 < (scanPeaks t).1 →
     (allow = true ∨ (scanPeaks t).1 * MinusOneThousandthDecibel < 1) →
      (∀ i, i < t.samples.length → ¬ isLFEChannel t (i % t.channels.length) →
        nth FVal.nan (Normalize t allow) i
          = FVal.fin (nth 0 t.samples i / ((scanPeaks t).1 * MinusOneThousandthDecibel))) ∧
      (∃ i, i < t.samples.length ∧ ¬ isLFEChannel t (i % t.channels.length) ∧
        nth FVal.nan (Normalize t allow) i = FVal.fin (1 / MinusOneThousandthDecibel)) ∧
      (∀ i, i < t.samples.length → ¬ isLFEChannel t (i % t.channels.length) →
        ∀ v, nth FVal.nan (Normalize t allow) i = FVal.fin v →
          v ≤ 1 / MinusOneThousandthDecibel)) ∧
    (0 < (scanPeaks t).2 →
     (allow = true ∨ (scanPeaks t).2 * MinusOneThousandthDecibel < 1) →
      (∀ i, i < t.samples.length → isLFEChannel t (i % t.channels.length) →
        nth FVal.nan (Normalize t allow) i
          = FVal.fin (nth 0 t.samples i / ((scanPeaks t).2 * MinusOneThousandthDecibel))) ∧
      (∃ i, i < t.samples.length ∧ isLFEChannel t (i % t.channels.length) ∧
        nth FVal.nan (Normalize t allow) i = FVal.fin (1 / MinusOneThousandthDecibel)) ∧
      (∀ i, i < t.samples.length → isLFEChannel t (i % t.channels.length) →
        ∀ v, nth FVal.nan (Normalize t allow) i = FVal.fin v →
          v ≤ 1 / MinusOneThousandthDecibel)) := by
  have hc := MinusOneThousandthDecibel_pos
  have hfr : (t.samples.length / t.channels.length) * t.channels.length = t.samples.length :=
    Nat.div_mul_cancel hdiv
  constructor
  · -- the non-LFE group, under its own peak positivity and guard
    intro hp hga
    have hpc : 0 < (scanPeaks t).1 * MinusOneThousandthDecibel := mul_pos hp hc
    have hpeq : (scanPeaks t).1 / ((scanPeaks t).1 * MinusOneThousandthDecibel)
        = 1 / MinusOneThousandthDecibel := by
      rw [div_eq_div_iff (ne_of_gt hpc) (ne_of_gt hc)]
      ring
    have hA : ∀ i, i < t.samples.length → ¬ isLFEChannel t (i % t.channels.length) →
        nth FVal.nan (Normalize t allow) i
          = FVal.fin (nth 0 t.samples i / ((scanPeaks t).1 * MinusOneThousandthDecibel)) := by
      intro i hi hnl
      have h1 : i < (t.samples.length / t.channels.length) * t.channels.length := by
        rw [hfr]; exact hi
      rw [nth_Normalize t allow i hi]
      simp only [normalizeRule]
      rw [if_pos h1, if_neg hnl, if_pos hga, fdivQ, if_neg (ne_of_gt hpc)]
    have hUBp : ∀ i, i < t.samples.length → ¬ isLFEChannel t (i % t.channels.length) →
        nth 0 t.samples i ≤ (scanPeaks t).1 := by
      intro i hi hnl
      have hj : i % t.channels.length < t.channels.length := Nat.mod_lt i hcc
      have hieq : (i / t.channels.length) * t.channels.length + i % t.channels.length = i := by
        rw [Nat.mul_comm]
        exact Nat.div_add_mod i t.channels.length
      have hf : i / t.channels.length < t.samples.length / t.channels.length := by
        rw [Nat.div_lt_iff_lt_mul hcc]
        rw [hfr]
        exact hi
      have hget : ¬ (t.channels.get ⟨i % t.channels.length, hj⟩).placement
          = ChannelPlacement.lowFrequencyEffects := by
        rw [← nth_eq_get defaultChannel t.channels (i % t.channels.length) hj]
        exact hnl
      have hmem : nth 0 t.samples i ∈
          chSamples t.samples t.channels.length (0 + i % t.channels.length)
            (t.samples.length / t.channels.length) := by
        rw [chSamples, mem_tabulate]
        exact ⟨i / t.channels.length, hf, by rw [Nat.zero_add, hieq]⟩
      have := scanChannels_fst_ub t.samples t.channels.length
        (t.samples.length / t.channels.length) t.channels 0 (0, 0)
        (i % t.channels.length) hj hget (nth 0 t.samples i) hmem
      simpa [scanPeaks] using this
    refine ⟨hA, ?_, ?_⟩
    · -- the non-LFE peak is attained, so 1 / MinusOneThousandthDecibel is reached
      rcases scanChannels_fst_cases t.samples t.channels.length
          (t.samples.length / t.channels.length) t.channels 0 (0, 0) with he | ⟨j, hj, hnl, hm⟩
      · exfalso
        have : (scanPeaks t).1 = 0 := by simpa [scanPeaks] using he
        rw [this] at hp
        exact lt_irrefl 0 hp
      · rw [chSamples, mem_tabulate] at hm
        rcases hm with ⟨f, hf, hs⟩
        have hs2 : (scanPeaks t).1
            = nth 0 t.samples (f * t.channels.length + j) := by
          simpa [scanPeaks] using hs
        have hilt : f * t.channels.length + j < t.samples.length := by
          have h2 : f * t.channels.length + j < (f + 1) * t.channels.length := by
            have : j < t.channels.length := hj
            calc f * t.channels.length + j < f * t.channels.length + t.channels.length := by omega
            _ = (f + 1) * t.channels.length := by ring
          have h3 : (f + 1) * t.channels.length
              ≤ (t.samples.length / t.channels.length) * t.channels.length :=
            Nat.mul_le_mul_right _ hf
          omega
        have hmod : (f * t.channels.length + j) % t.channels.length = j := by
          rw [Nat.add_comm, Nat.add_mul_mod_self_right]
          exact Nat.mod_eq_of_lt hj
        have hnl2 : ¬ isLFEChannel t ((f * t.channels.length + j) % t.channels.length) := by
          rw [hmod]
          unfold isLFEChannel
          rw [nth_eq_get defaultChannel t.channels j hj]
          exact hnl
        refine ⟨f * t.channels.length + j, hilt, hnl2, ?_⟩
        rw [hA _ hilt hnl2, ← hs2, hpeq]
    · intro i hi hnl v hv
      rw [hA i hi hnl] at hv
      have hveq : nth 0 t.samples i / ((scanPeaks t).1 * MinusOneThousandthDecibel) = v := by
        have := hv
        simp only [FVal.fin.injEq] at this
        exact this
      rw [← hveq, ← hpeq]
      rw [div_le_div_iff₀ hpc hpc]
      exact mul_le_mul_of_nonneg_right (hUBp i hi hnl) (le_of_lt hpc)
  · -- the LFE group, under its own peak positivity and guard
    intro hq hgb
    have hqc : 0 < (scanPeaks t).2 * MinusOneThousandthDecibel := mul_pos hq hc
    have hqeq : (scanPeaks t).2 / ((scanPeaks t).2 * MinusOneThousandthDecibel)
        = 1 / MinusOneThousandthDecibel := by
      rw [div_eq_div_iff (ne_of_gt hqc) (ne_of_gt hc)]
      ring
    have hB : ∀ i, i < t.samples.length → isLFEChannel t (i % t.channels.length) →
        nth FVal.nan (Normalize t allow) i
          = FVal.fin (nth 0 t.samples i / ((scanPeaks t).2 * MinusOneThousandthDecibel)) := by
      intro i hi hl
      have h1 : i < (t.samples.length / t.channels.length) * t.channels.length := by
        rw [hfr]; exact hi
      rw [nth_Normalize t allow i hi]
      simp only [normalizeRule]
      rw [if_pos h1, if_pos hl, if_pos hgb, fdivQ, if_neg (ne_of_gt hqc)]
    have hUBq : ∀ i, i < t.samples.length → isLFEChannel t (i % t.channels.length) →
        nth 0 t.samples i ≤ (scanPeaks t).2 := by
      intro i hi hl
      have hj : i % t.channels.length < t.channels.length := Nat.mod_lt i hcc
      have hieq : (i / t.channels.length) * t.channels.length + i % t.channels.length = i := by
        rw [Nat.mul_comm]
        exact Nat.div_add_mod i t.channels.length
      have hf : i / t.channels.length < t.samples.length / t.channels.length := by
        rw [Nat.div_lt_iff_lt_mul hcc]
        rw [hfr]
        exact hi
      have hget : (t.channels.get ⟨i % t.channels.length, hj⟩).placement
          = ChannelPlacement.lowFrequencyEffects := by
        rw [← nth_eq_get defaultChannel t.channels (i % t.channels.length) hj]
        exact hl
      have hmem : nth 0 t.samples i ∈
          chSamples t.samples t.channels.length (0 + i % t.channels.length)
            (t.samples.length / t.channels.length) := by
        rw [chSamples, mem_tabulate]
        exact ⟨i / t.channels.length, hf, by rw [Nat.zero_add, hieq]⟩
      have := scanChannels_snd_ub t.samples t.channels.length
        (t.samples.length / t.channels.length) t.channels 0 (0, 0)
        (i % t.channels.length) hj hget (nth 0 t.samples i) hmem
      simpa [scanPeaks] using this
    refine ⟨hB, ?_, ?_⟩
    · -- the LFE peak is attained
      rcases scanChannels_snd_cases t.samples t.channels.length
          (t.samples.length / t.channels.length) t.channels 0 (0, 0) with he | ⟨j, hj, hl, hm⟩
      · exfalso
        have : (scanPeaks t).2 = 0 := by simpa [scanPeaks] using he
        rw [this] at hq
        exact lt_irrefl 0 hq
      · rw [chSamples, mem_tabulate] at hm
        rcases hm with ⟨f, hf, hs⟩
        have hs2 : (scanPeaks t).2
            = nth 0 t.samples (f * t.channels.length + j) := by
          simpa [scanPeaks] using hs
        have hilt : f * t.channels.length + j < t.samples.length := by
          have h2 : f * t.channels.length + j < (f + 1) * t.channels.length := by
            have : j < t.channels.length := hj
            calc f * t.channels.length + j < f * t.channels.length + t.channels.length := by omega
            _ = (f + 1) * t.channels.length := by ring
          have h3 : (f + 1) * t.channels.length
              ≤ (t.samples.length / t.channels.length) * t.channels.length :=
            Nat.mul_le_mul_right _ hf
          omega
        have hmod : (f * t.channels.length + j) % t.channels.length = j := by
          rw [Nat.add_comm, Nat.add_mul_mod_self_right]
          exact Nat.mod_eq_of_lt hj
        have hl2 : isLFEChannel t ((f * t.channels.length + j) % t.channels.length) := by
          rw [hmod]
          unfold isLFEChannel
          rw [nth_eq_get defaultChannel t.channels j hj]
          exact hl
        refine ⟨f * t.channels.length + j, hilt, hl2, ?_⟩
        rw [hB _ hilt hl2, ← hs2, hqeq]
    · intro i hi hl v hv
      rw [hB i hi hl] at hv
      have hveq : nth 0 t.samples i / ((scanPeaks t).2 * MinusOneThousandthDecibel) = v := by
        have := hv
        simp only [FVal.fin.injEq] at this
        exact this
      rw [← hveq, ← hqeq]
      rw [div_le_div_iff₀ hqc hqc]
      exact mul_le_mul_of_nonneg_right (hUBq i hi hl) (le_of_lt hqc)

/-- C10 (amended): the normalizer measures each group peak as the running
maximum of the signed sample values, so for a track whose non-LFE samples are
all at most 0 the measured non-LFE peak is 0, the guard passes regardless of
allow_volume_decrease, and every non-LFE sample is divided by zero, becoming
NaN when the sample is 0 and negative infinity when it is negative. -/
theorem c10_amended (t : Track) (allow : Bool)
    (hcc : 0 < t.channels.length)
    (hdiv : t.channels.length ∣ t.samples.length)
    (hnp : ∀ i, i < t.samples.length → ¬ isLFEChannel t (i % t.channels.length) →
      nth 0 t.samples i ≤ 0) :
    (scanPeaks t).1 = 0 ∧
    (allow = true ∨ (scanPeaks t).1 * MinusOneThousandthDecibel < 1) ∧
    (∀ i, i < t.samples.length → ¬ isLFEChannel t (i % t.channels.length) →
      nth FVal.nan (Normalize t allow) i
        = (if nth 0 t.samples i < 0 then FVal.negInf else FVal.nan)) := by
  have hfr : (t.samples.length / t.channels.length) * t.channels.length = t.samples.length :=
    Nat.div_mul_cancel hdiv
  have hp0 : (scanPeaks t).1 = 0 := by
    have h0le : (0 : ℚ) ≤ (scanPeaks t).1 := by
      have := (scanChannels_le t.samples t.channels.length
        (t.samples.length / t.channels.length) t.channels 0 (0, 0)).1
      simpa [scanPeaks] using this
    rcases scanChannels_fst_cases t.samples t.channels.length
        (t.samples.length / t.channels.length) t.channels 0 (0, 0) with he | ⟨j, hj, hnl, hm⟩
    · simpa [scanPeaks] using he
    · rw [chSamples, mem_tabulate] at hm
      rcases hm with ⟨f, hf, hs⟩
      have hs2 : (scanPeaks t).1 = nth 0 t.samples (f * t.channels.length + j) := by
        simpa [scanPeaks] using hs
      have hilt : f * t.channels.length + j < t.samples.length := by
        have h2 : f * t.channels.length + j < (f + 1) * t.channels.length := by
          have : j < t.channels.length := hj
          calc f * t.channels.length + j < f * t.channels.length + t.channels.length := by omega
          _ = (f + 1) * t.channels.length := by ring
        have h3 : (f + 1) * t.channels.length
            ≤ (t.samples.length / t.channels.length) * t.channels.length :=
          Nat.mul_le_mul_right _ hf
        omega
      have hmod : (f * t.channels.length + j) % t.channels.length = j := by
        rw [Nat.add_comm, Nat.add_mul_mod_self_right]
        exact Nat.mod_eq_of_lt hj
      have hnl2 : ¬ isLFEChannel t ((f * t.channels.length + j) % t.channels.length) := by
        rw [hmod]
        unfold isLFEChannel
        rw [nth_eq_get defaultChannel t.channels j hj]
        exact hnl
      have hle := hnp _ hilt hnl2
      rw [← hs2] at hle
      exact le_antisymm hle h0le
  have hguard : allow = true ∨ (scanPeaks t).1 * MinusOneThousandthDecibel < 1 := by
    refine Or.inr ?_
    rw [hp0, zero_mul]
    norm_num
  refine ⟨hp0, hguard, ?_⟩
  intro i hi hnl
  have h1 : i < (t.samples.length / t.channels.length) * t.channels.length := by
    rw [hfr]; exact hi
  rw [nth_Normalize t allow i hi]
  simp only [normalizeRule]
  rw [if_pos h1, if_neg hnl, if_pos hguard, hp0, zero_mul, fdivQ, if_pos rfl,
    if_neg (not_lt.mpr (hnp i hi hnl))]

/-- Front left is not the LFE placement; convenient for evaluation. -/
theorem frontLeft_ne_lfe :
    ChannelPlacement.frontLeft ≠ ChannelPlacement.lowFrequencyEffects :=
  fun h => ChannelPlacement.noConfusion h

/-- One-channel front-left track holding the single sample 1/2. -/
def c1Track : Track := ⟨[1/2], 48000, [⟨0, ChannelPlacement.frontLeft, []⟩]⟩

/-- C1 counterexample: on a front-left-only track with the single sample 1/2
and volume decrease allowed, the measured peak is p = 1/2, yet the output
sample is 1 / MinusOneThousandthDecibel (the code divides by
p * MinusOneThousandthDecibel), not the claimed
MinusOneThousandthDecibel = (MinusOneThousandthDecibel / p) * (1/2), so the
post-call peak is above full scale rather than at -0.001 dBFS. -/
theorem c1_counterexample :
    Normalize c1Track true = [FVal.fin (1 / MinusOneThousandthDecibel)] ∧
    Normalize c1Track true ≠ [FVal.fin MinusOneThousandthDecibel] := by
  have h1 : Normalize c1Track true = [FVal.fin (1 / MinusOneThousandthDecibel)] := by
    norm_num [Normalize, normalizeRule, c1Track, scanPeaks, scanChannels, chSamples,
      tabulate, tabFrom, peakFold, nth, isLFEChannel, defaultChannel, fdivQ,
      frontLeft_ne_lfe, MinusOneThousandthDecibel]
  refine ⟨h1, ?_⟩
  rw [h1]
  intro h2
  have h3 : (1 : ℚ) / MinusOneThousandthDecibel = MinusOneThousandthDecibel := by
    simpa [FVal.fin.injEq] using h2
  norm_num [MinusOneThousandthDecibel] at h3

/-- Two-channel track (front left then LFE) with one frame of samples. -/
def c1WitnessTrack : Track :=
  ⟨[1/2, 1/4], 48000,
    [⟨0, ChannelPlacement.frontLeft, []⟩, ⟨1, ChannelPlacement.lowFrequencyEffects, []⟩]⟩

/-- C1 witness: the amended statement applied to a concrete two-channel track
with non-LFE peak 1/2 and LFE peak 1/4, both positive, with the guards
discharged; some non-LFE output sample equals 1 / MinusOneThousandthDecibel. -/
theorem c1_witness :
    ∃ i, i < c1WitnessTrack.samples.length ∧
      ¬ isLFEChannel c1WitnessTrack (i % c1WitnessTrack.channels.length) ∧
      nth FVal.nan (Normalize c1WitnessTrack true) i
        = FVal.fin (1 / MinusOneThousandthDecibel) :=
  ((c1_amended c1WitnessTrack true
    (by norm_num [c1WitnessTrack])
    (by norm_num [c1WitnessTrack])).1
    (by norm_num [c1WitnessTrack, scanPeaks, scanChannels, chSamples, tabulate, tabFrom,
      peakFold, nth, frontLeft_ne_lfe])
    (Or.inl rfl)).2.1

/-- One-channel front-left track holding the single sample -1/2. -/
def c10Track : Track := ⟨[-1/2], 48000, [⟨0, ChannelPlacement.frontLeft, []⟩]⟩

/-- C10 counterexample: on a front-left-only track whose only sample is -1/2
(all samples at most 0), the division by the zero peak produces negative
infinity, not the claimed NaN. -/
theorem c10_counterexample :
    Normalize c10Track false = [FVal.negInf] ∧ FVal.negInf ≠ FVal.nan := by
  constructor
  · norm_num [Normalize, normalizeRule, c10Track, scanPeaks, scanChannels, chSamples,
      tabulate, tabFrom, peakFold, nth, isLFEChannel, defaultChannel, fdivQ,
      MinusOneThousandthDecibel]
  · intro h
    exact FVal.noConfusion h

/-- One-channel front-left track with samples 0 and -1/2, all at most 0. -/
def c10WitnessTrack : Track := ⟨[0, -1/2], 48000, [⟨0, ChannelPlacement.frontLeft, []⟩]⟩

/-- C10 witness: the amended statement applied to a concrete silent-or-negative
track; the negative sample at index 1 becomes negative infinity. -/
theorem c10_witness :
    nth FVal.nan (Normalize c10WitnessTrack false) 1
      = (if nth 0 c10WitnessTrack.samples 1 < 0 then FVal.negInf else FVal.nan) :=
  (c10_amended c10WitnessTrack false
    (by norm_num [c10WitnessTrack])
    (by norm_num [c10WitnessTrack])
    (by
      intro i hi hnl
      have h2 : i < 2 := by simpa [c10WitnessTrack] using hi
      interval_cases i <;> norm_num [c10WitnessTrack, nth])).2.2 1
    (by norm_num [c10WitnessTrack])
    (by simp [c10WitnessTrack, isLFEChannel, nth, defaultChannel])

/-! ### Channel layout transformer: 7.1 to 5.1 downmix

Embeds ChannelLayoutTransformer::DownmixToFiveDotOne
(ChannelLayoutTransformer.cpp lines 172-277).  The function first collects
the interleave offsets of the eight expected placements into fullMapping
(front left, front center, front right, LFE) and halfMapping (side left,
back left, side right, back right), fails when any is missing, then writes
per frame the six outputs; the fifth output is written from
halfMapping[2] + halfMapping[2] (the side-right offset twice), exactly as
line 245 of the source does. -/

structure SurroundMap where
  fullFrontLeft : Option Nat
  fullFrontCenter : Option Nat
  fullFrontRight : Option Nat
  fullLowFrequencyEffects : Option Nat
  halfSideLeft : Option Nat
  halfBackLeft : Option Nat
  halfSideRight : Option Nat
  halfBackRight : Option Nat

def emptySurroundMap : SurroundMap := ⟨none, none, none, none, none, none, none, none⟩

/-- The placement switch of the mapping-collection loop. -/
def collectSurroundMap : List Channel → Nat → SurroundMap → SurroundMap
  | [], _, m => m
  | ch :: rest, i, m =>
      let m2 :=
        match ch.placement with
        | ChannelPlacement.frontLeft => { m with fullFrontLeft := some i }
        | ChannelPlacement.frontCenter => { m with fullFrontCenter := some i }
        | ChannelPlacement.frontRight => { m with fullFrontRight := some i }
        | ChannelPlacement.lowFrequencyEffects => { m with fullLowFrequencyEffects := some i }
        | ChannelPlacement.sideLeft => { m with halfSideLeft := some i }
        | ChannelPlacement.backLeft => { m with halfBackLeft := some i }
        | ChannelPlacement.sideRight => { m with halfSideRight := some i }
        | ChannelPlacement.backRight => { m with halfBackRight := some i }
        | _ => m
      collectSurroundMap rest (i + 1) m2

/-- The channel records written after a successful 7.1 to 5.1 downmix. -/
def fiveDotOneChannels : List Channel :=
  [⟨0, ChannelPlacement.frontLeft, []⟩, ⟨1, ChannelPlacement.frontCenter, []⟩,
   ⟨2, ChannelPlacement.frontRight, []⟩, ⟨3, ChannelPlacement.backLeft, []⟩,
   ⟨4, ChannelPlacement.backRight, []⟩, ⟨5, ChannelPlacement.lowFrequencyEffects, []⟩]

/-- ChannelLayoutTransformer::DownmixToFiveDotOne; none models the thrown
runtime errors for a non-8-channel track or a missing placement. -/
def DownmixToFiveDotOne (t : Track) : Option Track :=
  if t.channels.length = 8 then
    let m := collectSurroundMap t.channels 0 emptySurroundMap
    match m.fullFrontLeft, m.fullFrontCenter, m.fullFrontRight, m.fullLowFrequencyEffects,
      m.halfSideLeft, m.halfBackLeft, m.halfSideRight, m.halfBackRight with
    | some f0, some f1, some f2, some f3, some h0, some h1, some h2, some h3 =>
      let frames := t.samples.length / 8
      some
        { samples := (tabulate (fun fr =>
            [nth 0 t.samples (fr * 8 + f0),
             nth 0 t.samples (fr * 8 + f1),
             nth 0 t.samples (fr * 8 + f2),
             (nth 0 t.samples (fr * 8 + h0) + nth 0 t.samples (fr * 8 + h1)) / 2,
             (nth 0 t.samples (fr * 8 + h2) + nth 0 t.samples (fr * 8 + h2)) / 2,
             nth 0 t.samples (fr * 8 + f3)]) frames).flatten
          sampleRate := t.sampleRate
          channels := fiveDotOneChannels }
    | _, _, _, _, _, _, _, _ => none
  else none

/-- An 8-channel 7.1 track with one frame whose only nonzero sample is
BackRight = 1 (SideRight = 0). -/
def c2Track : Track :=
  ⟨[0, 0, 0, 0, 0, 1, 0, 0], 48000,
    [⟨0, ChannelPlacement.frontLeft, []⟩, ⟨1, ChannelPlacement.frontRight, []⟩,
     ⟨2, ChannelPlacement.frontCenter, []⟩, ⟨3, ChannelPlacement.lowFrequencyEffects, []⟩,
     ⟨4, ChannelPlacement.backLeft, []⟩, ⟨5, ChannelPlacement.backRight, []⟩,
     ⟨6, ChannelPlacement.sideLeft, []⟩, ⟨7, ChannelPlacement.sideRight, []⟩]⟩

/-- C2: evaluating DownmixToFiveDotOne at a frame whose BackRight sample is 1
and whose other samples are 0.  The claim predicts the fifth output channel
(SR + BR) / 2 = 1/2; the code produces (SR + SR) / 2 = 0 because line 245
adds the SideRight offset to itself, so BackRight never contributes. -/
theorem c2_theorem :
    (DownmixToFiveDotOne c2Track).map Track.samples = some [0, 0, 0, 0, 0, 0] ∧
    nth 0 c2Track.samples 5 = 1 ∧
    ((nth 0 c2Track.samples 7 + nth 0 c2Track.samples 5) / 2 : ℚ) = 1 / 2 ∧
    ((1 : ℚ) / 2 : ℚ) ≠ 0 := by
  refine ⟨?_, by norm_num [c2Track, nth], by norm_num [c2Track, nth], by norm_num⟩
  simp [DownmixToFiveDotOne, collectSurroundMap, emptySurroundMap, c2Track, nth,
    tabulate, tabFrom, fiveDotOneChannels]

/-! ### Channel layout transformer: mono to stereo upmix

Embeds ChannelLayoutTransformer::UpmixToStereo
(ChannelLayoutTransformer.cpp lines 281-323).  After resizing the buffer to
twice the frame count, the C++ sets its read pointer to
Samples.data() - 1 (one float before the buffer) and its write pointer to
the last output frame, then steps both backward; iteration i therefore
reads index -1 - i, which is outside the buffer for every iteration.  The
model surfaces the first such read as an out-of-bounds outcome. -/

inductive UpmixLoopResult where
  | done (buf : List ℚ)
  | oobRead (idx : Int)

/-- The reverse copy loop of UpmixToStereo, with the read index the C++
pointer arithmetic produces. -/
def upmixLoop (fc : Nat) : Nat → Nat → List ℚ → UpmixLoopResult
  | 0, _, buf => UpmixLoopResult.done buf
  | n + 1, i, buf =>
      let readIdx : Int := -1 - (i : Int)
      if readIdx < 0 ∨ (buf.length : Int) ≤ readIdx then UpmixLoopResult.oobRead readIdx
      else
        let s := nth 0 buf readIdx.toNat
        upmixLoop fc n (i + 1)
          (setN (setN buf (2 * fc - 2 - 2 * i) s) (2 * fc - 2 - 2 * i + 1) s)

inductive UpmixResult where
  | ok (t : Track)
  | unsupported
  | oobRead (idx : Int)

/-- ChannelLayoutTransformer::UpmixToStereo. -/
def UpmixToStereo (t : Track) : UpmixResult :=
  if t.channels.length = 1 then
    if (nth defaultChannel t.channels 0).placement = ChannelPlacement.frontCenter then
      let fc := t.samples.length
      match upmixLoop fc fc 0 (t.samples ++ List.replicate fc 0) with
      | UpmixLoopResult.done buf =>
          UpmixResult.ok
            ⟨buf, t.sampleRate,
              [⟨0, ChannelPlacement.frontLeft, []⟩, ⟨1, ChannelPlacement.frontRight, []⟩]⟩
      | UpmixLoopResult.oobRead idx => UpmixResult.oobRead idx
    else UpmixResult.unsupported
  else UpmixResult.unsupported

/-- The mono track of the concrete scenario: samples 0.25, 0.5, 2.0. -/
def c4Track : Track := ⟨[1/4, 1/2, 2], 48000, [⟨0, ChannelPlacement.frontCenter, []⟩]⟩

/-- C4: evaluating UpmixToStereo at the mono input 0.25, 0.5, 2.0.  The very
first loop iteration reads index -1, one float before the sample buffer, so
the function never produces the verbatim interleaved copy
0.25, 0.25, 0.5, 0.5, 2.0, 2.0 that the claim (and the repository's own test
CanUpmixMonoToStereo) expects. -/
theorem c4_theorem : UpmixToStereo c4Track = UpmixResult.oobRead (-1) := by
  norm_num [UpmixToStereo, upmixLoop, c4Track, nth, defaultChannel]

/-! ### Clipping detector: Update

Embeds ClippingDetector::Update (ClippingDetector.cpp lines 321-391).  Each
existing half-wave window is re-scanned in the provided buffer for its
absolute peak; a changed peak is stored and resets the ineffective
iteration count, an unchanged one increments it; the function returns how
many half-waves still have a peak above 1 and a post-update count below 10.
The stored peak index is not updated (that assignment is commented out in
the source). -/

/-- Re-scan of one half-wave window: absolute peak and its frame, starting
from peak 0 and peak index prior_zero_crossing_index. -/
def windowScan (buf : List ℚ) (cc ch : Nat) (w : ClippingHalfwave) : ℚ × Nat :=
  (tabulate (fun j => w.priorZeroCrossingIndex + j)
      (w.nextZeroCrossingIndex - w.priorZeroCrossingIndex)).foldl
    (fun acc f =>
      if acc.1 < fabs (nth 0 buf (f * cc + ch)) then (fabs (nth 0 buf (f * cc + ch)), f)
      else acc)
    (0, w.priorZeroCrossingIndex)

/-- The per-half-wave update: store a changed peak and reset the ineffective
iteration count, or increment the count when the peak is unchanged. -/
def updateHalfwave (buf : List ℚ) (cc ch : Nat) (w : ClippingHalfwave) : ClippingHalfwave :=
  if (windowScan buf cc ch w).1 ≠ w.peakAmplitude then
    { w with ineffectiveIterationCount := 0, peakAmplitude := (windowScan buf cc ch w).1 }
  else
    { w with ineffectiveIterationCount := w.ineffectiveIterationCount + 1 }

/-- The inner loop of Update over one channel's half-wave list, threading the
running count of still-clipping half-waves. -/
def updateChannelGo (buf : List ℚ) (cc ch : Nat) :
    List ClippingHalfwave → Nat → List ClippingHalfwave × Nat
  | [], n => ([], n)
  | w :: rest, n =>
      let w2 := updateHalfwave buf cc ch w
      let n2 :=
        if 1 < (windowScan buf cc ch w).1 then
          if w2.ineffectiveIterationCount < 10 then n + 1 else n
        else n
      let r := updateChannelGo buf cc ch rest n2
      (w2 :: r.1, r.2)

/-- The outer loop of Update over the channels. -/
def updateChannelsGo (buf : List ℚ) (cc : Nat) :
    List Channel → Nat → Nat → List Channel × Nat
  | [], _, n => ([], n)
  | ch :: rest, ci, n =>
      let r := updateChannelGo buf cc ci ch.clippingHalfwaves n
      let r2 := updateChannelsGo buf cc rest (ci + 1) r.2
      ({ ch with clippingHalfwaves := r.1 } :: r2.1, r2.2)

/-- ClippingDetector::Update: the track with every half-wave re-measured in
the given buffer, and the number of half-waves still counted as clipping. -/
def Update (t : Track) (samples : List ℚ) : Track × Nat :=
  let r := updateChannelsGo samples t.channels.length t.channels 0 0
  ({ t with channels := r.1 }, r.2)

/-- The channels Update produces: every half-wave of channel ci mapped
through updateHalfwave for that channel. -/
def updatedChannels (buf : List ℚ) (cc : Nat) : List Channel → Nat → List Channel
  | [], _ => []
  | ch :: rest, ci =>
      { ch with clippingHalfwaves := ch.clippingHalfwaves.map (updateHalfwave buf cc ci) } ::
        updatedChannels buf cc rest (ci + 1)

/-- How many of a channel's half-waves have a stored peak above 1 and an
ineffective iteration count below 10. -/
def clipCountOf (ch : Channel) : Nat :=
  ch.clippingHalfwaves.countP (fun w =>
    decide (1 < w.peakAmplitude) && decide (w.ineffectiveIterationCount < 10))

theorem updateHalfwave_peak (buf : List ℚ) (cc ch : Nat) (w : ClippingHalfwave) :
    (updateHalfwave buf cc ch w).peakAmplitude = (windowScan buf cc ch w).1 := by
  unfold updateHalfwave
  by_cases h : (windowScan buf cc ch w).1 ≠ w.peakAmplitude
  · rw [if_pos h]
  · rw [if_neg h]
    exact (not_ne_iff.mp h).symm

theorem updateChannelGo_spec (buf : List ℚ) (cc ch : Nat) :
    ∀ (l : List ClippingHalfwave) (n : Nat),
      updateChannelGo buf cc ch l n
        = (l.map (updateHalfwave buf cc ch),
           n + (l.map (updateHalfwave buf cc ch)).countP (fun w =>
             decide (1 < w.peakAmplitude) && decide (w.ineffectiveIterationCount < 10)))
  | [], n => by simp [updateChannelGo]
  | w :: rest, n => by
      have hpk := updateHalfwave_peak buf cc ch w
      simp only [updateChannelGo, updateChannelGo_spec buf cc ch rest, List.map_cons,
        List.countP_cons, Prod.mk.injEq]
      refine ⟨trivial, ?_⟩
      by_cases h1 : 1 < (windowScan buf cc ch w).1
      · by_cases h2 : (updateHalfwave buf cc ch w).ineffectiveIterationCount < 10
        · have : (decide (1 < (updateHalfwave buf cc ch w).peakAmplitude) &&
              decide ((updateHalfwave buf cc ch w).ineffectiveIterationCount < 10)) = true := by
            rw [hpk]
            simp [h1, h2]
          rw [if_pos h1, if_pos h2, this]
          simp only [if_true]
          omega
        · have : (decide (1 < (updateHalfwave buf cc ch w).peakAmplitude) &&
              decide ((updateHalfwave buf cc ch w).ineffectiveIterationCount < 10)) = false := by
            rw [hpk]
            simp [h2]
          rw [if_pos h1, if_neg h2, this]
          norm_num
      · have : (decide (1 < (updateHalfwave buf cc ch w).peakAmplitude) &&
            decide ((updateHalfwave buf cc ch w).ineffectiveIterationCount < 10)) = false := by
          rw [hpk]
          simp [h1]
        rw [if_neg h1, this]
        norm_num

theorem updateChannelsGo_spec (buf : List ℚ) (cc : Nat) :
    ∀ (l : List Channel) (ci n : Nat),
      updateChannelsGo buf cc l ci n
        = (updatedChannels buf cc l ci,
           n + ((updatedChannels buf cc l ci).map clipCountOf).sum)
  | [], ci, n => by simp [updateChannelsGo, updatedChannels]
  | ch :: rest, ci, n => by
      simp only [updateChannelsGo, updateChannelGo_spec buf cc ci ch.clippingHalfwaves n,
        updateChannelsGo_spec buf cc rest (ci + 1), updatedChannels, List.map_cons,
        List.sum_cons, clipCountOf, Prod.mk.injEq]
      refine ⟨trivial, by omega⟩

/-- C7: for every track and same-length buffer, ClippingDetector::Update
replaces each half-wave of channel ci by its re-scan (store the recomputed
absolute peak and reset the ineffective count when it differs from the
stored peak, increment the count otherwise), and the returned value equals
the number of post-update half-waves whose stored (that is, recomputed)
peak exceeds 1 and whose post-update ineffective count is below 10. -/
theorem c7_theorem (t : Track) (samples : List ℚ)
    (hlen : samples.length = t.samples.length) :
    (Update t samples).1.channels = updatedChannels samples t.channels.length t.channels 0 ∧
    (Update t samples).2 = (((Update t samples).1.channels).map clipCountOf).sum := by
  have hspec := updateChannelsGo_spec samples t.channels.length t.channels 0 0
  constructor
  · simp only [Update, hspec]
  · simp only [Update, hspec]
    omega

/-- One-channel track with a single half-wave over frames 0 to 1 whose stored
peak is 3/2. -/
def c7WitnessTrack : Track :=
  ⟨[2, -1/2], 48000,
    [⟨0, ChannelPlacement.frontLeft, [⟨0, 0, 1, 3/2, 0, 0⟩]⟩]⟩

/-- C7 witness: the theorem applied to a concrete one-channel track and a
same-length decoded buffer whose window peak is 6/5. -/
theorem c7_witness :
    (Update c7WitnessTrack [6/5, -1/2]).2
      = (((Update c7WitnessTrack [6/5, -1/2]).1.channels).map clipCountOf).sum :=
  (c7_theorem c7WitnessTrack [6/5, -1/2] (by norm_num [c7WitnessTrack])).2

/-- The 9-frame stereo track of concrete scenario 2: the left channel is a
constant 1/10 and the right channel runs into clipping at the buffer end. -/
def c8Track : Track :=
  ⟨[1/10, 3/10, 1/10, 1/10, 1/10, -1/10, 1/10, -3/10, 1/10, -1/10,
    1/10, 3/10, 1/10, 9/10, 1/10, 13/10, 1/10, 9/10], 48000,
    [⟨0, ChannelPlacement.frontLeft, []⟩, ⟨1, ChannelPlacement.frontRight, []⟩]⟩

/-- C8: when the detection loop ends a channel while was_clipping is set, the
final half-wave is appended with next_zero_crossing_index equal to the frame
count (the exclusive buffer end); and on the concrete 9-frame stereo track
whose right channel is 0.3, 0.1, -0.1, -0.3, -0.1, 0.3, 0.9, 1.3, 0.9,
detection yields exactly one half-wave on that channel, with prior 5,
peak index 7, next 9 and peak 13/10. -/
theorem c8_theorem :
    (∀ (s0 : ℚ) (rest : List ℚ), (detGo (detInit s0) 1 rest).wasClipping = true →
      ∃ w, (findChannelClippingHalfwaves (s0 :: rest)).getLast? = some w ∧
        w.nextZeroCrossingIndex = (s0 :: rest).length) ∧
    (nth defaultChannel (FindClippingHalfwaves c8Track).channels 1).clippingHalfwaves
      = [⟨5, 7, 9, 13/10, 0, 0⟩] := by
  constructor
  · intro s0 rest hclip
    refine ⟨detectedHalfwave (detGo (detInit s0) 1 rest).zeroCrossingIndex
      (detGo (detInit s0) 1 rest).clippingPeakIndex (s0 :: rest).length
      (detGo (detInit s0) 1 rest).clippingPeak, ?_, rfl⟩
    simp only [findChannelClippingHalfwaves, hclip, if_true]
    exact List.getLast?_concat _
  · norm_num [FindClippingHalfwaves, findChannelClippingHalfwaves, detGo, detStep, detInit,
      chSamples, tabulate, tabFrom, nth, fabs, detectedHalfwave, c8Track, defaultChannel]

/-- C8 witness: the general buffer-end statement applied to the concrete
right-channel sample sequence, whose scan does end in the clipping state. -/
theorem c8_witness :
    ∃ w, (findChannelClippingHalfwaves
        ([3/10, 1/10, -1/10, -3/10, -1/10, 3/10, 9/10, 13/10, 9/10] : List ℚ)).getLast?
        = some w ∧ w.nextZeroCrossingIndex = 9 := by
  have h := c8_theorem.1 (3/10)
    [1/10, -1/10, -3/10, -1/10, 3/10, 9/10, 13/10, 9/10]
    (by norm_num [detGo, detStep, detInit, fabs, detectedHalfwave])
  simpa using h

/-! ### Half-wave tucker

Embeds HalfwaveTucker.cpp.  updateAndReturnVolumeQuotient (lines 52-86)
computes the per-wave quotient and updates the stored volume quotient;
TuckClippingHalfwaves (lines 96-144) walks each channel's sample pointer
from half-wave to half-wave, dividing every sample inside
[prior_zero_crossing_index, next_zero_crossing_index) by the quotient.
There is no range validation: a half-wave reaching past the buffer makes
the pointer walk leave the buffer, which the model surfaces as an
out-of-bounds outcome carrying the buffer as modified so far. -/

/-- updateAndReturnVolumeQuotient: the quotient to divide by (already divided
by MinusOneThousandthDecibel) and the updated half-wave record. -/
def updateAndReturnVolumeQuotient (w : ClippingHalfwave) : ℚ × ClippingHalfwave :=
  if 1 < w.peakAmplitude then
    let q := fabs w.peakAmplitude
    let q2 := if w.volumeQuotient ≠ 0 then q * w.volumeQuotient else q
    (q2 / MinusOneThousandthDecibel, { w with volumeQuotient := q2 })
  else
    (w.volumeQuotient / MinusOneThousandthDecibel, w)

def applyQuotient (w : ClippingHalfwave) : ℚ := (updateAndReturnVolumeQuotient w).1

def tuckedWaveState (w : ClippingHalfwave) : ClippingHalfwave :=
  (updateAndReturnVolumeQuotient w).2

/-- Result of the inner per-half-wave division loop. -/
inductive TuckStep where
  | ok (buf : List FVal) (pos : Nat)
  | oob (buf : List FVal) (pos : Nat)

/-- The division loop over one half-wave: n samples starting at flat index
pos, stepping by the channel count.  A step outside the buffer aborts with
the buffer as modified so far (the C++ would write out of bounds here). -/
def tuckWaveGo (q : ℚ) (cc : Nat) : Nat → List FVal → Nat → TuckStep
  | 0, buf, pos => TuckStep.ok buf pos
  | n + 1, buf, pos =>
      if pos < buf.length then
        tuckWaveGo q cc n (setN buf pos (ffdiv (nth FVal.nan buf pos) q)) (pos + cc)
      else TuckStep.oob buf pos

/-- Result of tucking one channel's half-wave list. -/
inductive TuckChannelResult where
  | ok (buf : List FVal) (waves : List ClippingHalfwave) (pos : Nat)
  | oob (buf : List FVal) (pos : Nat)

/-- The per-channel loop of TuckClippingHalfwaves: advance the sample pointer
by (prior - skip) * channelCount, divide the half-wave window, and continue
with skip = next_zero_crossing_index, collecting updated wave records. -/
def tuckChannelGo (cc : Nat) :
    List ClippingHalfwave → List FVal → Nat → Nat → TuckChannelResult
  | [], buf, pos, _ => TuckChannelResult.ok buf [] pos
  | w :: rest, buf, pos, skip =>
      let pos2 := pos + (w.priorZeroCrossingIndex - skip) * cc
      match tuckWaveGo (applyQuotient w) cc
          (w.nextZeroCrossingIndex - w.priorZeroCrossingIndex) buf pos2 with
      | TuckStep.ok buf2 pos3 =>
          match tuckChannelGo cc rest buf2 pos3 w.nextZeroCrossingIndex with
          | TuckChannelResult.ok buf3 rest2 pos4 =>
              TuckChannelResult.ok buf3 (tuckedWaveState w :: rest2) pos4
          | TuckChannelResult.oob buf3 pos4 => TuckChannelResult.oob buf3 pos4
      | TuckStep.oob buf2 pos3 => TuckChannelResult.oob buf2 pos3

/-- Result of HalfwaveTucker::TuckClippingHalfwaves. -/
inductive TuckResult where
  | ok (samples : List FVal) (channels : List Channel)
  | oob (samples : List FVal) (pos : Nat)

/-- The outer loop over the channels; channel ci starts its pointer at flat
index ci (Samples.data() + channelIndex). -/
def tuckChannelsGo (cc : Nat) : List Channel → Nat → List FVal → TuckResult
  | [], _, buf => TuckResult.ok buf []
  | ch :: rest, ci, buf =>
      match tuckChannelGo cc ch.clippingHalfwaves buf ci 0 with
      | TuckChannelResult.ok buf2 waves2 _ =>
          match tuckChannelsGo cc rest (ci + 1) buf2 with
          | TuckResult.ok buf3 rest2 =>
              TuckResult.ok buf3 ({ ch with clippingHalfwaves := waves2 } :: rest2)
          | TuckResult.oob buf3 pos => TuckResult.oob buf3 pos
      | TuckChannelResult.oob buf2 pos => TuckResult.oob buf2 pos

/-- HalfwaveTucker::TuckClippingHalfwaves on a track. -/
def TuckClippingHalfwaves (t : Track) : TuckResult :=
  tuckChannelsGo t.channels.length t.channels 0 (t.samples.map FVal.fin)

/-- Per-channel half-wave lists that are sorted and disjoint: every half-wave
ends at or before each later one begins. -/
def wavesOrdered : List ClippingHalfwave → Prop
  | [] => True
  | w :: rest =>
      (∀ w2 ∈ rest, w.nextZeroCrossingIndex ≤ w2.priorZeroCrossingIndex) ∧ wavesOrdered rest

/-- Maximum absolute sample value over a half-wave window of one channel. -/
def windowAbsMax (buf : List ℚ) (cc ch : Nat) (w : ClippingHalfwave) : ℚ :=
  peakFold ((tabulate (fun j => nth 0 buf ((w.priorZeroCrossingIndex + j) * cc + ch))
    (w.nextZeroCrossingIndex - w.priorZeroCrossingIndex)).map fabs) 0

theorem fabs_eq_abs (q : ℚ) : fabs q = |q| := by
  unfold fabs
  by_cases h : q < 0
  · rw [if_pos h, abs_of_neg h]
  · rw [if_neg h, abs_of_nonneg (le_of_not_lt h)]

/-- Inside an index bound, the inner loop succeeds, advances the position by
n steps of the channel stride, divides exactly the visited indices and
leaves every other index unchanged. -/
theorem tuckWaveGo_ok (q : ℚ) (cc : Nat) (hcc : 0 < cc) :
    ∀ (n : Nat) (buf : List FVal) (pos : Nat),
      (∀ j, j < n → pos + j * cc < buf.length) →
      ∃ buf2, tuckWaveGo q cc n buf pos = TuckStep.ok buf2 (pos + n * cc) ∧
        buf2.length = buf.length ∧
        (∀ j, j < n →
          nth FVal.nan buf2 (pos + j * cc) = ffdiv (nth FVal.nan buf (pos + j * cc)) q) ∧
        (∀ p, (∀ j, j < n → p ≠ pos + j * cc) → nth FVal.nan buf2 p = nth FVal.nan buf p)
  | 0, buf, pos, _ => by
      refine ⟨buf, ?_, rfl, ?_, ?_⟩
      · simp [tuckWaveGo]
      · intro j hj; omega
      · intro p _; rfl
  | n + 1, buf, pos, hb => by
      have hpos : pos < buf.length := by
        have := hb 0 (by omega)
        simpa using this
      have hb2 : ∀ j, j < n →
          (pos + cc) + j * cc < (setN buf pos (ffdiv (nth FVal.nan buf pos) q)).length := by
        intro j hj
        rw [length_setN]
        have := hb (j + 1) (by omega)
        have hsm : (j + 1) * cc = j * cc + cc := Nat.succ_mul j cc
        omega
      obtain ⟨buf2, heq, hlen, hwrite, hsame⟩ :=
        tuckWaveGo_ok q cc hcc n (setN buf pos (ffdiv (nth FVal.nan buf pos) q)) (pos + cc) hb2
      refine ⟨buf2, ?_, ?_, ?_, ?_⟩
      · rw [tuckWaveGo, if_pos hpos, heq]
        have hsm : (n + 1) * cc = n * cc + cc := Nat.succ_mul n cc
        have : pos + cc + n * cc = pos + (n + 1) * cc := by omega
        rw [this]
      · rw [hlen, length_setN]
      · intro j hj
        cases j with
        | zero =>
            have hne : ∀ j2, j2 < n → pos + 0 * cc ≠ (pos + cc) + j2 * cc := by
              intro j2 _
              have h1 : 0 ≤ j2 * cc := Nat.zero_le _
              omega
            rw [hsame _ hne]
            have h0 : pos + 0 * cc = pos := by omega
            rw [h0, nth_setN_self FVal.nan buf pos _ hpos]
        | succ j =>
            have hidx : pos + (j + 1) * cc = (pos + cc) + j * cc := by
              have hsm : (j + 1) * cc = j * cc + cc := Nat.succ_mul j cc
              omega
            rw [hidx, hwrite j (by omega)]
            have hne : (pos + cc) + j * cc ≠ pos := by
              have h1 : 0 ≤ j * cc := Nat.zero_le _
              omega
            rw [nth_setN_other FVal.nan buf pos ((pos + cc) + j * cc) _ hne]
      · intro p hp
        have hne : ∀ j, j < n → p ≠ (pos + cc) + j * cc := by
          intro j hj
          have := hp (j + 1) (by omega)
          have hsm : (j + 1) * cc = j * cc + cc := Nat.succ_mul j cc
          omega
        rw [hsame p hne]
        have hne0 : p ≠ pos := by
          have := hp 0 (by omega)
          omega
        rw [nth_setN_other FVal.nan buf pos p _ hne0]

/-- With the channel stride 1, a window reaching past the buffer end makes
the inner loop abort at the buffer length, after dividing every sample from
the start position to the end of the buffer. -/
theorem tuckWaveGo_oob_one (q : ℚ) :
    ∀ (n : Nat) (buf : List FVal) (pos : Nat),
      pos ≤ buf.length → buf.length < pos + n →
      ∃ buf2, tuckWaveGo q 1 n buf pos = TuckStep.oob buf2 buf.length ∧
        buf2.length = buf.length ∧
        (∀ p, p < buf.length → nth FVal.nan buf2 p
          = (if pos ≤ p then ffdiv (nth FVal.nan buf p) q else nth FVal.nan buf p))
  | 0, buf, pos, hle, hlt => by omega
  | n + 1, buf, pos, hle, hlt => by
      by_cases hpos : pos < buf.length
      · have hle2 : pos + 1 ≤ (setN buf pos (ffdiv (nth FVal.nan buf pos) q)).length := by
          rw [length_setN]; omega
        have hlt2 : (setN buf pos (ffdiv (nth FVal.nan buf pos) q)).length < (pos + 1) + n := by
          rw [length_setN]; omega
        obtain ⟨buf2, heq, hlen, hchar⟩ :=
          tuckWaveGo_oob_one q n (setN buf pos (ffdiv (nth FVal.nan buf pos) q)) (pos + 1)
            hle2 hlt2
        rw [length_setN] at hlen
        refine ⟨buf2, ?_, hlen, ?_⟩
        · simp only [tuckWaveGo]
          rw [if_pos hpos, heq, length_setN]
        · intro p hp
          have := hchar p (by rw [length_setN]; exact hp)
          rw [this]
          rcases Nat.lt_trichotomy p pos with h | h | h
          · rw [if_neg (by omega), if_neg (by omega),
              nth_setN_other FVal.nan buf pos p _ (by omega)]
          · subst h
            rw [if_neg (by omega), if_pos (le_refl p), nth_setN_self FVal.nan buf p _ hpos]
          · rw [if_pos (by omega), if_pos (by omega),
              nth_setN_other FVal.nan buf pos p _ (by omega)]
      · have hpe : pos = buf.length := by omega
        refine ⟨buf, ?_, rfl, ?_⟩
        · simp only [tuckWaveGo]
          rw [if_neg hpos, hpe]
        · intro p hp
          rw [if_neg (by omega)]

theorem flat_index_lt {cc ch f frames : Nat} (hch : ch < cc) (hf : f < frames) :
    ch + f * cc < frames * cc := by
  have h1 : ch + f * cc < cc + f * cc := by omega
  have h2 : cc + f * cc = (f + 1) * cc := by ring
  have h3 : (f + 1) * cc ≤ frames * cc := Nat.mul_le_mul_right cc hf
  omega

/-- For sorted, disjoint, in-buffer half-wave lists the per-channel tuck
succeeds; every sample of every window is divided by that window's quotient
(reading the original value), samples of other channels (other residues
modulo the channel count) are untouched, and so are frames before the
starting skip index. -/
theorem tuckChannelGo_ok (cc : Nat) (hcc : 0 < cc) (ch : Nat) (hch : ch < cc) (frames : Nat) :
    ∀ (waves : List ClippingHalfwave) (buf : List FVal) (skip : Nat),
      buf.length = frames * cc →
      (∀ w ∈ waves, w.priorZeroCrossingIndex ≤ w.nextZeroCrossingIndex ∧
        w.nextZeroCrossingIndex ≤ frames) →
      (∀ w, waves.head? = some w → skip ≤ w.priorZeroCrossingIndex) →
      wavesOrdered waves →
      ∃ buf2 pos2, tuckChannelGo cc waves buf (ch + skip * cc) skip
          = TuckChannelResult.ok buf2 (waves.map tuckedWaveState) pos2 ∧
        buf2.length = buf.length ∧
        (∀ w ∈ waves, ∀ f, w.priorZeroCrossingIndex ≤ f → f < w.nextZeroCrossingIndex →
          nth FVal.nan buf2 (ch + f * cc)
            = ffdiv (nth FVal.nan buf (ch + f * cc)) (applyQuotient w)) ∧
        (∀ p, p % cc ≠ ch → nth FVal.nan buf2 p = nth FVal.nan buf p) ∧
        (∀ f, f < skip → nth FVal.nan buf2 (ch + f * cc) = nth FVal.nan buf (ch + f * cc))
  | [], buf, skip, _, _, _, _ => by
      refine ⟨buf, ch + skip * cc, ?_, rfl, ?_, ?_, ?_⟩
      · simp [tuckChannelGo]
      · intro w hw; simp at hw
      · intro p _; rfl
      · intro f _; rfl
  | w :: rest, buf, skip, hbl, hwf, hlb, hord => by
      have hw := hwf w (List.mem_cons_self w rest)
      have hskip : skip ≤ w.priorZeroCrossingIndex := hlb w rfl
      have hsubm : (w.priorZeroCrossingIndex - skip) * cc
          = w.priorZeroCrossingIndex * cc - skip * cc := Nat.sub_mul _ _ _
      have hmle : skip * cc ≤ w.priorZeroCrossingIndex * cc :=
        Nat.mul_le_mul_right cc hskip
      have hpos2 : (ch + skip * cc) + (w.priorZeroCrossingIndex - skip) * cc
          = ch + w.priorZeroCrossingIndex * cc := by omega
      have hb1 : ∀ j, j < w.nextZeroCrossingIndex - w.priorZeroCrossingIndex →
          (ch + w.priorZeroCrossingIndex * cc) + j * cc < buf.length := by
        intro j hj
        have hadd : (w.priorZeroCrossingIndex + j) * cc
            = w.priorZeroCrossingIndex * cc + j * cc := Nat.add_mul _ _ _
        have hfl : w.priorZeroCrossingIndex + j < frames := by omega
        have := flat_index_lt hch hfl
        omega
      obtain ⟨buf1, heq1, hlen1, hwrite1, hsame1⟩ :=
        tuckWaveGo_ok (applyQuotient w) cc hcc
          (w.nextZeroCrossingIndex - w.priorZeroCrossingIndex) buf
          (ch + w.priorZeroCrossingIndex * cc) hb1
      have hpos3 : (ch + w.priorZeroCrossingIndex * cc) +
          (w.nextZeroCrossingIndex - w.priorZeroCrossingIndex) * cc
          = ch + w.nextZeroCrossingIndex * cc := by
        have hsub2 : (w.nextZeroCrossingIndex - w.priorZeroCrossingIndex) * cc
            = w.nextZeroCrossingIndex * cc - w.priorZeroCrossingIndex * cc := Nat.sub_mul _ _ _
        have hle2 : w.priorZeroCrossingIndex * cc ≤ w.nextZeroCrossingIndex * cc :=
          Nat.mul_le_mul_right cc hw.1
        omega
      have hlbl : ∀ w2, rest.head? = some w2 →
          w.nextZeroCrossingIndex ≤ w2.priorZeroCrossingIndex := by
        intro w2 hw2
        cases rest with
        | nil => simp at hw2
        | cons r rs =>
            simp at hw2
            subst hw2
            exact hord.1 r (List.mem_cons_self r rs)
      obtain ⟨buf2, pos4, heq2, hlen2, hwrite2, hres2, hbelow2⟩ :=
        tuckChannelGo_ok cc hcc ch hch frames rest buf1 w.nextZeroCrossingIndex
          (hlen1.trans hbl)
          (fun w2 hw2 => hwf w2 (List.mem_cons_of_mem w hw2))
          hlbl hord.2
      refine ⟨buf2, pos4, ?_, hlen2.trans hlen1, ?_, ?_, ?_⟩
      · simp only [tuckChannelGo]
        rw [hpos2, heq1, hpos3]
        dsimp only
        rw [heq2]
        simp [List.map_cons]
      · intro w2 hw2 f hf1 hf2
        rcases List.mem_cons.mp hw2 with he | hmem
        · subst he
          rw [hbelow2 f hf2]
          have hidx : (ch + w2.priorZeroCrossingIndex * cc) +
              (f - w2.priorZeroCrossingIndex) * cc = ch + f * cc := by
            have hs : (f - w2.priorZeroCrossingIndex) * cc
                = f * cc - w2.priorZeroCrossingIndex * cc := Nat.sub_mul _ _ _
            have hl : w2.priorZeroCrossingIndex * cc ≤ f * cc :=
              Nat.mul_le_mul_right cc hf1
            omega
          rw [← hidx, hwrite1 (f - w2.priorZeroCrossingIndex) (by omega), hidx]
        · rw [hwrite2 w2 hmem f hf1 hf2]
          have hne : ∀ j, j < w.nextZeroCrossingIndex - w.priorZeroCrossingIndex →
              ch + f * cc ≠ (ch + w.priorZeroCrossingIndex * cc) + j * cc := by
            intro j hj heqp
            have hord1 := hord.1 w2 hmem
            have hlt : w.priorZeroCrossingIndex + j < f := by omega
            have hmul := mul_lt_mul_of_pos_right hlt hcc
            have hadd : (w.priorZeroCrossingIndex + j) * cc
                = w.priorZeroCrossingIndex * cc + j * cc := Nat.add_mul _ _ _
            omega
          rw [hsame1 _ hne]
      · intro p hp
        rw [hres2 p hp]
        apply hsame1
        intro j hj heqp
        apply hp
        have h1 : (ch + w.priorZeroCrossingIndex * cc) + j * cc
            = ch + (w.priorZeroCrossingIndex + j) * cc := by
          have hadd : (w.priorZeroCrossingIndex + j) * cc
              = w.priorZeroCrossingIndex * cc + j * cc := Nat.add_mul _ _ _
          omega
        rw [heqp, h1, Nat.add_mul_mod_self_right]
        exact Nat.mod_eq_of_lt hch
      · intro f hf
        rw [hbelow2 f (by omega)]
        apply hsame1
        intro j hj heqp
        have hlt : f < w.priorZeroCrossingIndex + j := by omega
        have hmul := mul_lt_mul_of_pos_right hlt hcc
        have hadd : (w.priorZeroCrossingIndex + j) * cc
            = w.priorZeroCrossingIndex * cc + j * cc := Nat.add_mul _ _ _
        omega

/-- The outer channel loop succeeds for well-formed wave lists; each channel's
windows end up divided by their own quotients, reading the original buffer. -/
theorem tuckChannelsGo_ok (cc : Nat) (hcc : 0 < cc) (frames : Nat) :
    ∀ (chs : List Channel) (ci : Nat) (buf : List FVal),
      buf.length = frames * cc →
      ci + chs.length = cc →
      (∀ ch ∈ chs, ∀ w ∈ ch.clippingHalfwaves,
        w.priorZeroCrossingIndex ≤ w.nextZeroCrossingIndex ∧
        w.nextZeroCrossingIndex ≤ frames) →
      (∀ ch ∈ chs, wavesOrdered ch.clippingHalfwaves) →
      ∃ buf2, tuckChannelsGo cc chs ci buf
          = TuckResult.ok buf2 (chs.map (fun ch =>
              { ch with clippingHalfwaves := ch.clippingHalfwaves.map tuckedWaveState })) ∧
        buf2.length = buf.length ∧
        (∀ j, j < chs.length → ∀ w ∈ (nth defaultChannel chs j).clippingHalfwaves,
          ∀ f, w.priorZeroCrossingIndex ≤ f → f < w.nextZeroCrossingIndex →
            nth FVal.nan buf2 ((ci + j) + f * cc)
              = ffdiv (nth FVal.nan buf ((ci + j) + f * cc)) (applyQuotient w)) ∧
        (∀ p, p % cc < ci → nth FVal.nan buf2 p = nth FVal.nan buf p)
  | [], ci, buf, _, _, _, _ => by
      refine ⟨buf, by simp [tuckChannelsGo], rfl, ?_, ?_⟩
      · intro j hj; simp at hj
      · intro p _; rfl
  | ch :: rest, ci, buf, hbl, hcl, hwf, hord => by
      have hci : ci < cc := by
        have := hcl
        simp at this
        omega
      obtain ⟨buf1, pos2, heq1, hlen1, hwrite1, hres1, _⟩ :=
        tuckChannelGo_ok cc hcc ci hci frames ch.clippingHalfwaves buf 0 hbl
          (hwf ch (List.mem_cons_self ch rest))
          (fun w _ => Nat.zero_le _)
          (hord ch (List.mem_cons_self ch rest))
      rw [Nat.zero_mul, Nat.add_zero] at heq1
      obtain ⟨buf2, heq2, hlen2, hwrite2, hres2⟩ :=
        tuckChannelsGo_ok cc hcc frames rest (ci + 1) buf1 (hlen1.trans hbl)
          (by simp at hcl; omega)
          (fun c hc => hwf c (List.mem_cons_of_mem ch hc))
          (fun c hc => hord c (List.mem_cons_of_mem ch hc))
      refine ⟨buf2, ?_, hlen2.trans hlen1, ?_, ?_⟩
      · simp only [tuckChannelsGo]
        rw [heq1]
        dsimp only
        rw [heq2]
        simp [List.map_cons]
      · intro j hj w hwm f hf1 hf2
        cases j with
        | zero =>
            have hmod : (ci + f * cc) % cc = ci := by
              rw [Nat.add_mul_mod_self_right]
              exact Nat.mod_eq_of_lt hci
            have hidx : ci + 0 + f * cc = ci + f * cc := by omega
            rw [hidx]
            rw [hres2 (ci + f * cc) (by omega)]
            exact hwrite1 w (by simpa using hwm) f hf1 hf2
        | succ j =>
            have hjr : j < rest.length := by simpa using hj
            have hidx : ci + (j + 1) + f * cc = ((ci + 1) + j) + f * cc := by omega
            rw [hidx]
            have hwm2 : w ∈ (nth defaultChannel rest j).clippingHalfwaves := by
              simpa [nth] using hwm
            rw [hwrite2 j hjr w hwm2 f hf1 hf2]
            have hmod : (((ci + 1) + j) + f * cc) % cc = (ci + 1) + j := by
              rw [Nat.add_mul_mod_self_right]
              apply Nat.mod_eq_of_lt
              simp at hcl
              omega
            rw [hres1 _ (by omega)]
      · intro p hp
        rw [hres2 p (by omega), hres1 p (by omega)]

theorem nth_mem {α : Type} (d : α) (l : List α) (n : Nat) (h : n < l.length) :
    nth d l n ∈ l := by
  rw [nth_eq_get d l n h]
  exact List.get_mem l n h

/-- A never-scaled clipping half-wave (volume quotient 0) with stored peak
above 1 is divided by peak / MinusOneThousandthDecibel. -/
theorem applyQuotient_untucked (w : ClippingHalfwave)
    (h1 : 1 < w.peakAmplitude) (h0 : w.volumeQuotient = 0) :
    applyQuotient w = w.peakAmplitude / MinusOneThousandthDecibel := by
  have hnneg : ¬ w.peakAmplitude < 0 := not_lt.mpr (le_of_lt (lt_trans zero_lt_one h1))
  simp [applyQuotient, updateAndReturnVolumeQuotient, if_pos h1, fabs, hnneg, h0]

/-- C5: on a track whose per-channel half-wave lists are sorted, disjoint and
inside the buffer, whose stored peaks equal the actual maximum absolute
value over each window, and whose volume quotients are still 0 (the state
after a fresh detection pass), TuckClippingHalfwaves succeeds and every
sample inside the window of a half-wave whose stored peak exceeded 1 ends
up with absolute value at most MinusOneThousandthDecibel, strictly below
0 dBFS. -/
theorem c5_theorem (t : Track)
    (hcc : 0 < t.channels.length)
    (hdivlen : t.samples.length = (t.samples.length / t.channels.length) * t.channels.length)
    (hwf : ∀ ch ∈ t.channels, ∀ w ∈ ch.clippingHalfwaves,
      w.priorZeroCrossingIndex ≤ w.nextZeroCrossingIndex ∧
      w.nextZeroCrossingIndex ≤ t.samples.length / t.channels.length)
    (hord : ∀ ch ∈ t.channels, wavesOrdered ch.clippingHalfwaves)
    (hpk : ∀ ci, ci < t.channels.length →
      ∀ w ∈ (nth defaultChannel t.channels ci).clippingHalfwaves,
        w.peakAmplitude = windowAbsMax t.samples t.channels.length ci w)
    (hvq : ∀ ch ∈ t.channels, ∀ w ∈ ch.clippingHalfwaves, w.volumeQuotient = 0) :
    ∃ buf2, TuckClippingHalfwaves t
        = TuckResult.ok buf2 (t.channels.map (fun ch =>
            { ch with clippingHalfwaves := ch.clippingHalfwaves.map tuckedWaveState })) ∧
      ∀ ci, ci < t.channels.length →
        ∀ w ∈ (nth defaultChannel t.channels ci).clippingHalfwaves,
          1 < w.peakAmplitude →
          ∀ f, w.priorZeroCrossingIndex ≤ f → f < w.nextZeroCrossingIndex →
            ∃ v, nth FVal.nan buf2 (ci + f * t.channels.length) = FVal.fin v ∧
              fabs v ≤ MinusOneThousandthDecibel := by
  have hc := MinusOneThousandthDecibel_pos
  have hbl : (t.samples.map FVal.fin).length
      = (t.samples.length / t.channels.length) * t.channels.length := by
    rw [List.length_map]
    exact hdivlen
  obtain ⟨buf2, heq, hlen2, hwrite, _⟩ :=
    tuckChannelsGo_ok t.channels.length hcc (t.samples.length / t.channels.length)
      t.channels 0 (t.samples.map FVal.fin) hbl (by omega) hwf hord
  refine ⟨buf2, heq, ?_⟩
  intro ci hci w hwm hpeak f hf1 hf2
  have hchm : nth defaultChannel t.channels ci ∈ t.channels := nth_mem _ _ ci hci
  have hvq0 : w.volumeQuotient = 0 := hvq _ hchm w hwm
  have hfw := hwf _ hchm w hwm
  have hff : f < t.samples.length / t.channels.length := by omega
  have hidx : ci + f * t.channels.length < t.samples.length := by
    have := flat_index_lt hci hff
    omega
  have hq := applyQuotient_untucked w hpeak hvq0
  have hpkpos : 0 < w.peakAmplitude := lt_trans zero_lt_one hpeak
  have hqpos : 0 < w.peakAmplitude / MinusOneThousandthDecibel := div_pos hpkpos hc
  have hw0 := hwrite ci hci w hwm f hf1 hf2
  rw [Nat.zero_add] at hw0
  rw [hw0, nth_map_fin t.samples _ hidx, hq]
  rw [ffdiv, fdivQ, if_neg (ne_of_gt hqpos)]
  refine ⟨_, rfl, ?_⟩
  -- the sample is bounded by the window peak, which equals the stored peak
  have hsmem : fabs (nth 0 t.samples (ci + f * t.channels.length)) ∈
      ((tabulate (fun j => nth 0 t.samples
          ((w.priorZeroCrossingIndex + j) * t.channels.length + ci))
        (w.nextZeroCrossingIndex - w.priorZeroCrossingIndex)).map fabs) := by
    apply List.mem_map_of_mem
    rw [mem_tabulate]
    refine ⟨f - w.priorZeroCrossingIndex, by omega, ?_⟩
    have : (w.priorZeroCrossingIndex + (f - w.priorZeroCrossingIndex)) = f := by omega
    rw [this, Nat.add_comm]
  have habs : fabs (nth 0 t.samples (ci + f * t.channels.length)) ≤ w.peakAmplitude := by
    rw [hpk ci hci w hwm]
    exact mem_le_peakFold _ 0 _ hsmem
  rw [fabs_eq_abs] at habs ⊢
  rw [abs_div, abs_of_pos hqpos, div_le_iff₀ hqpos]
  have hcan : MinusOneThousandthDecibel * (w.peakAmplitude / MinusOneThousandthDecibel)
      = w.peakAmplitude := by
    field_simp
  rw [hcan]
  exact habs

/-- One-channel track with samples 6/5 and -1/2 and the matching freshly
detected half-wave over frames 0 to 1 with peak 6/5. -/
def c5WitnessTrack : Track :=
  ⟨[6/5, -1/2], 48000,
    [⟨0, ChannelPlacement.frontLeft, [⟨0, 0, 1, 6/5, 0, 0⟩]⟩]⟩

/-- C5 witness: the theorem applied to a concrete freshly detected track. -/
theorem c5_witness :
    ∃ buf2, TuckClippingHalfwaves c5WitnessTrack
        = TuckResult.ok buf2 (c5WitnessTrack.channels.map (fun ch =>
            { ch with clippingHalfwaves := ch.clippingHalfwaves.map tuckedWaveState })) ∧
      ∀ ci, ci < c5WitnessTrack.channels.length →
        ∀ w ∈ (nth defaultChannel c5WitnessTrack.channels ci).clippingHalfwaves,
          1 < w.peakAmplitude →
          ∀ f, w.priorZeroCrossingIndex ≤ f → f < w.nextZeroCrossingIndex →
            ∃ v, nth FVal.nan buf2 (ci + f * c5WitnessTrack.channels.length) = FVal.fin v ∧
              fabs v ≤ MinusOneThousandthDecibel :=
  c5_theorem c5WitnessTrack
    (by norm_num [c5WitnessTrack])
    (by norm_num [c5WitnessTrack])
    (by
      intro ch hch w hw
      simp [c5WitnessTrack] at hch
      subst hch
      simp at hw
      subst hw
      norm_num [c5WitnessTrack])
    (by
      intro ch hch
      simp [c5WitnessTrack] at hch
      subst hch
      exact ⟨by simp, trivial⟩)
    (by
      intro ci hci w hw
      have hci0 : ci = 0 := by
        simp [c5WitnessTrack] at hci
        omega
      subst hci0
      simp [c5WitnessTrack, nth] at hw
      subst hw
      norm_num [windowAbsMax, c5WitnessTrack, tabulate, tabFrom, peakFold, nth, fabs])
    (by
      intro ch hch w hw
      simp [c5WitnessTrack] at hch
      subst hch
      simp at hw
      subst hw
      rfl)

/-- C9: when TuckClippingHalfwaves processes a half-wave whose stored peak is
at most 1 and whose volume quotient is still 0 (the state of a half-wave
synthesized by Integrate whose re-measured peak stayed at or below 1), the
apply-quotient is 0 / MinusOneThousandthDecibel = 0 and every sample of the
window is divided by zero, becoming positive or negative infinity or NaN;
no error is raised. -/
theorem c9_theorem (t : Track) (chn : Channel) (w : ClippingHalfwave)
    (hch : t.channels = [chn])
    (hwv : chn.clippingHalfwaves = [w])
    (hpk : w.peakAmplitude ≤ 1)
    (hvq : w.volumeQuotient = 0)
    (hwf1 : w.priorZeroCrossingIndex ≤ w.nextZeroCrossingIndex)
    (hwf2 : w.nextZeroCrossingIndex ≤ t.samples.length) :
    applyQuotient w = 0 ∧
    ∃ buf2 chans2, TuckClippingHalfwaves t = TuckResult.ok buf2 chans2 ∧
      ∀ f, w.priorZeroCrossingIndex ≤ f → f < w.nextZeroCrossingIndex →
        nth FVal.nan buf2 f
          = (if 0 < nth 0 t.samples f then FVal.posInf
             else if nth 0 t.samples f < 0 then FVal.negInf else FVal.nan) := by
  have hq0 : applyQuotient w = 0 := by
    simp [applyQuotient, updateAndReturnVolumeQuotient, if_neg (not_lt.mpr hpk), hvq]
  have hbl : (t.samples.map FVal.fin).length = t.samples.length * 1 := by
    rw [List.length_map, Nat.mul_one]
  obtain ⟨buf2, heq, _, hwrite, _⟩ :=
    tuckChannelsGo_ok 1 (by omega) t.samples.length [chn] 0 (t.samples.map FVal.fin) hbl
      (by simp)
      (by
        intro c hc w2 hw2
        simp at hc
        subst hc
        rw [hwv] at hw2
        simp at hw2
        subst hw2
        exact ⟨hwf1, hwf2⟩)
      (by
        intro c hc
        simp at hc
        subst hc
        rw [hwv]
        exact ⟨by simp, trivial⟩)
  refine ⟨hq0, buf2,
    List.map (fun ch =>
      { ch with clippingHalfwaves := ch.clippingHalfwaves.map tuckedWaveState }) [chn],
    ?_, ?_⟩
  · simp only [TuckClippingHalfwaves, hch, List.length_cons, List.length_nil, Nat.zero_add]
    exact heq
  · intro f hf1 hf2
    have hw0 := hwrite 0 (by simp) w (by simp [nth, hwv]) f hf1 hf2
    have hidx : 0 + 0 + f * 1 = f := by omega
    rw [hidx] at hw0
    have hfl : f < t.samples.length := by omega
    rw [hw0, nth_map_fin t.samples f hfl, hq0, ffdiv, fdivQ, if_pos rfl]

/-- The half-wave of the C9 witness: peak 1/2, volume quotient 0, window over
both frames of the track. -/
def c9Wave : ClippingHalfwave := ⟨0, 0, 2, 1/2, 0, 0⟩

/-- One-channel track with samples 1/2 and -1/2 carrying c9Wave. -/
def c9WitnessTrack : Track :=
  ⟨[1/2, -1/2], 48000, [⟨0, ChannelPlacement.frontLeft, [c9Wave]⟩]⟩

/-- C9 witness: the theorem applied to a concrete track; its first window
sample is divided by zero and becomes positive infinity, the second becomes
negative infinity. -/
theorem c9_witness :
    applyQuotient c9Wave = 0 ∧
    ∃ buf2 chans2, TuckClippingHalfwaves c9WitnessTrack = TuckResult.ok buf2 chans2 ∧
      ∀ f, c9Wave.priorZeroCrossingIndex ≤ f → f < c9Wave.nextZeroCrossingIndex →
        nth FVal.nan buf2 f
          = (if 0 < nth 0 c9WitnessTrack.samples f then FVal.posInf
             else if nth 0 c9WitnessTrack.samples f < 0 then FVal.negInf else FVal.nan) :=
  c9_theorem c9WitnessTrack ⟨0, ChannelPlacement.frontLeft, [c9Wave]⟩ c9Wave
    rfl rfl (by norm_num [c9Wave]) (by norm_num [c9Wave]) (by norm_num [c9Wave])
    (by norm_num [c9Wave, c9WitnessTrack])

/-- C6 (amended): TuckClippingHalfwaves performs no range validation: on a
one-channel track whose single half-wave starts inside the buffer but ends
past it, the pointer walk leaves the buffer (undefined behaviour in the
C++), modelled as an out-of-bounds outcome at the buffer length, and by the
time that happens every in-range sample from the window start on has
already been divided by the quotient; no InvalidState error exists and the
buffer does not stay unchanged. -/
theorem c6_amended (t : Track) (chn : Channel) (w : ClippingHalfwave)
    (hch : t.channels = [chn])
    (hwv : chn.clippingHalfwaves = [w])
    (hple : w.priorZeroCrossingIndex ≤ t.samples.length)
    (hnlt : t.samples.length < w.nextZeroCrossingIndex) :
    ∃ buf2, TuckClippingHalfwaves t = TuckResult.oob buf2 t.samples.length ∧
      ∀ p, p < t.samples.length → nth FVal.nan buf2 p
        = (if w.priorZeroCrossingIndex ≤ p
           then ffdiv (FVal.fin (nth 0 t.samples p)) (applyQuotient w)
           else FVal.fin (nth 0 t.samples p)) := by
  have hlb : (t.samples.map FVal.fin).length = t.samples.length := List.length_map _ _
  obtain ⟨buf2, heqW, hlenW, hcharW⟩ :=
    tuckWaveGo_oob_one (applyQuotient w)
      (w.nextZeroCrossingIndex - w.priorZeroCrossingIndex)
      (t.samples.map FVal.fin) w.priorZeroCrossingIndex
      (by omega) (by omega)
  rw [hlb] at heqW
  refine ⟨buf2, ?_, ?_⟩
  · simp only [TuckClippingHalfwaves, hch]
    simp only [tuckChannelsGo, hwv, tuckChannelGo]
    have hpos : (0 : Nat) + (w.priorZeroCrossingIndex - 0) * [chn].length
        = w.priorZeroCrossingIndex := by simp
    rw [hpos]
    have hcc1 : [chn].length = 1 := rfl
    rw [hcc1, heqW]
  · intro p hp
    have := hcharW p (by omega)
    rw [this]
    by_cases hc : w.priorZeroCrossingIndex ≤ p
    · rw [if_pos hc, if_pos hc, nth_map_fin t.samples p hp]
    · rw [if_neg hc, if_neg hc, nth_map_fin t.samples p hp]

/-- One-channel track with samples 2 and 2 and a half-wave claiming the range
0 to 5, which reaches past the 2-frame buffer. -/
def c6Track : Track :=
  ⟨[2, 2], 48000, [⟨0, ChannelPlacement.frontLeft, [⟨0, 0, 5, 2, 0, 0⟩]⟩]⟩

/-- C6 counterexample: on the track whose only half-wave extends past the
buffer, the tuck does not fail with an InvalidState error leaving the
buffer unchanged; it scales the two in-range samples (2 becomes
MinusOneThousandthDecibel) and then walks out of the buffer. -/
theorem c6_counterexample :
    TuckClippingHalfwaves c6Track
      = TuckResult.oob
          [FVal.fin MinusOneThousandthDecibel, FVal.fin MinusOneThousandthDecibel] 2 ∧
    [FVal.fin MinusOneThousandthDecibel, FVal.fin MinusOneThousandthDecibel]
      ≠ c6Track.samples.map FVal.fin := by
  constructor
  · norm_num [TuckClippingHalfwaves, tuckChannelsGo, tuckChannelGo, tuckWaveGo, c6Track,
      applyQuotient, updateAndReturnVolumeQuotient, fabs, setN, nth, ffdiv, fdivQ,
      tuckedWaveState, MinusOneThousandthDecibel]
  · intro h
    simp [c6Track] at h
    norm_num [MinusOneThousandthDecibel] at h

/-- C6 witness: the amended statement applied to the concrete track. -/
theorem c6_witness :
    ∃ buf2, TuckClippingHalfwaves c6Track = TuckResult.oob buf2 c6Track.samples.length ∧
      ∀ p, p < c6Track.samples.length → nth FVal.nan buf2 p
        = (if (⟨0, 0, 5, 2, 0, 0⟩ : ClippingHalfwave).priorZeroCrossingIndex ≤ p
           then ffdiv (FVal.fin (nth 0 c6Track.samples p))
             (applyQuotient ⟨0, 0, 5, 2, 0, 0⟩)
           else FVal.fin (nth 0 c6Track.samples p)) :=
  c6_amended c6Track ⟨0, ChannelPlacement.frontLeft, [⟨0, 0, 5, 2, 0, 0⟩]⟩ ⟨0, 0, 5, 2, 0, 0⟩
    rfl rfl (by norm_num [c6Track]) (by norm_num [c6Track])

/-! ### Clipping detector: Integrate

Embeds ClippingDetector::Integrate (ClippingDetector.cpp lines 280-317) with
its helpers findExistingClippingHalfwave, insertOrdered and
getHalfwaveAroundSample.  A freshly detected half-wave from the decoded
track either overwrites the peak of the first intersecting existing
half-wave or is synthesized in the source buffer by scanning outward from
its peak sample until the sign changes. -/

/-- The intersection test of findExistingClippingHalfwave: begins inside,
ends inside, or envelops. -/
def intersects (e w : ClippingHalfwave) : Prop :=
  (w.priorZeroCrossingIndex ≥ e.priorZeroCrossingIndex ∧
    w.priorZeroCrossingIndex < e.nextZeroCrossingIndex) ∨
  (e.nextZeroCrossingIndex ≥ w.nextZeroCrossingIndex ∧
    e.priorZeroCrossingIndex < w.nextZeroCrossingIndex) ∨
  (w.priorZeroCrossingIndex < e.priorZeroCrossingIndex ∧
    w.nextZeroCrossingIndex ≥ e.nextZeroCrossingIndex)

instance (e w : ClippingHalfwave) : Decidable (intersects e w) := by
  unfold intersects
  infer_instance

/-- Overwrite the peak of the first existing half-wave intersecting w, or
report none when no existing half-wave intersects. -/
def setPeakAtFirstIntersecting :
    List ClippingHalfwave → ClippingHalfwave → Option (List ClippingHalfwave)
  | [], _ => none
  | e :: rest, w =>
      if intersects e w then some ({ e with peakAmplitude := w.peakAmplitude } :: rest)
      else
        match setPeakAtFirstIntersecting rest w with
        | some l => some (e :: l)
        | none => none

/-- Lower-bound insertion by prior_zero_crossing_index. -/
def insertOrdered : List ClippingHalfwave → ClippingHalfwave → List ClippingHalfwave
  | [], w => [w]
  | e :: rest, w =>
      if e.priorZeroCrossingIndex < w.priorZeroCrossingIndex then e :: insertOrdered rest w
      else w :: e :: rest

/-- Backward scan of getHalfwaveAroundSample: walk toward index 0 while the
preceding sample stays on the same side of zero. -/
def backScan (buf : List ℚ) (cc ch : Nat) (startsAbove : Bool) : Nat → Nat
  | 0 => 0
  | p + 1 =>
      if ((if 0 ≤ nth 0 buf (ch + p * cc) then true else false) ≠ startsAbove) then p + 1
      else backScan buf cc ch startsAbove p

/-- Forward scan of getHalfwaveAroundSample: walk toward endIndex while the
sample stays on the same side of zero.  The C++ bounds this scan by the
total sample count (Samples.size), not the frame count; the model keeps
that bound.  The first argument is fuel covering the remaining distance. -/
def fwdScan (buf : List ℚ) (cc ch : Nat) (startsAbove : Bool) (endIndex : Nat) :
    Nat → Nat → Nat
  | 0, n => n
  | fuel + 1, n =>
      if n < endIndex then
        if ((if 0 ≤ nth 0 buf (ch + n * cc) then true else false) ≠ startsAbove) then n
        else fwdScan buf cc ch startsAbove endIndex fuel (n + 1)
      else n

/-- getHalfwaveAroundSample: synthesize a half-wave in the source buffer
around the given sample index, with peak amplitude 0 (to be fixed by a later
Update call) and peak index at the given sample. -/
def getHalfwaveAroundSample (buf : List ℚ) (cc ch sampleIndex : Nat) : ClippingHalfwave :=
  let startsAbove : Bool := if 0 ≤ nth 0 buf (ch + sampleIndex * cc) then true else false
  ⟨backScan buf cc ch startsAbove sampleIndex, sampleIndex,
    fwdScan buf cc ch startsAbove buf.length buf.length (sampleIndex + 1), 0, 0, 0⟩

/-- The per-channel Integrate loop over the freshly detected half-waves. -/
def IntegrateChannel (srcSamples : List ℚ) (cc ch : Nat) :
    List ClippingHalfwave → List ClippingHalfwave → List ClippingHalfwave
  | srcWaves, [] => srcWaves
  | srcWaves, w :: rest =>
      let next :=
        match setPeakAtFirstIntersecting srcWaves w with
        | some l => l
        | none => insertOrdered srcWaves (getHalfwaveAroundSample srcSamples cc ch w.peakIndex)
      IntegrateChannel srcSamples cc ch next rest

/-- ClippingDetector::Integrate over the whole track pair. -/
def Integrate (src decoded : Track) : Track :=
  { src with
      channels := tabulate (fun ci =>
        let sch := nth defaultChannel src.channels ci
        { sch with
            clippingHalfwaves := IntegrateChannel src.samples src.channels.length ci
              sch.clippingHalfwaves
              (nth defaultChannel decoded.channels ci).clippingHalfwaves })
        src.channels.length }

/-! ### Transcode coordinator: the iterative declip loop

Embeds the loop of Transcoder::DoWork (Transcoder.cpp lines 330-389).  The
external Opus encode-decode round trip is abstracted by an oracle giving
the decoded sample buffer of each iteration.  One iteration decodes (the
oracle), finds clipping half-waves in the decoded buffer, integrates them
into the source track's lists, updates the peaks from the decoded samples,
and, when the returned count is nonzero, declips a fresh copy of the
source, whose only persistent effect is the volume-quotient update of each
half-wave record (copied back into the source track).  The loop header is
for(step = 2;; ++step): there is no iteration cap, the only exit is a
returned count of 0. -/

/-- One iteration up to the remaining-count check: decode (oracle value),
detect on the decoded buffer, integrate into the source lists, update. -/
def loopBody (st : Track) (decoded : List ℚ) : Track × Nat :=
  let decodedTrack := FindClippingHalfwaves { st with samples := decoded }
  Update (Integrate st decodedTrack) decoded

/-- The persistent effect of the declip step on the track state: every
half-wave record goes through the tucker's volume-quotient update. -/
def tuckWaveLists (t : Track) : Track :=
  { t with
      channels := t.channels.map (fun ch =>
        { ch with clippingHalfwaves := ch.clippingHalfwaves.map tuckedWaveState }) }

/-- The track state before iteration k + j, starting from state st at
iteration k, assuming no iteration in between exited. -/
def loopStateFrom (oracle : Nat → List ℚ) : Track → Nat → Nat → Track
  | st, _, 0 => st
  | st, k, j + 1 => loopStateFrom oracle (tuckWaveLists (loopBody st (oracle k)).1) (k + 1) j

/-- The count Update returns in iteration k of the loop started on src. -/
def remainingAt (src : Track) (oracle : Nat → List ℚ) (k : Nat) : Nat :=
  (loopBody (loopStateFrom oracle src 0 k) (oracle k)).2

/-- The iterative declip loop with fuel: returns the iteration index at which
Update reported 0 remaining half-waves, or none if that did not happen
within the given number of iterations. -/
def runLoop (oracle : Nat → List ℚ) : Nat → Nat → Track → Option Nat
  | 0, _, _ => none
  | fuel + 1, k, st =>
      if (loopBody st (oracle k)).2 = 0 then some k
      else runLoop oracle fuel (k + 1) (tuckWaveLists (loopBody st (oracle k)).1)

theorem runLoop_spec (oracle : Nat → List ℚ) :
    ∀ (fuel k : Nat) (st : Track),
      (runLoop oracle fuel k st).isSome = true ↔
        ∃ j, j < fuel ∧ (loopBody (loopStateFrom oracle st k j) (oracle (k + j))).2 = 0
  | 0, k, st => by simp [runLoop]
  | fuel + 1, k, st => by
      by_cases h : (loopBody st (oracle k)).2 = 0
      · simp only [runLoop, if_pos h, Option.isSome_some]
        constructor
        · intro _
          exact ⟨0, by omega, by simpa [loopStateFrom] using h⟩
        · intro _
          trivial
      · simp only [runLoop, if_neg h]
        rw [runLoop_spec oracle fuel (k + 1) (tuckWaveLists (loopBody st (oracle k)).1)]
        constructor
        · rintro ⟨j, hj, hz⟩
          refine ⟨j + 1, by omega, ?_⟩
          have hst : loopStateFrom oracle st k (j + 1)
              = loopStateFrom oracle (tuckWaveLists (loopBody st (oracle k)).1) (k + 1) j := rfl
          have hk : k + (j + 1) = (k + 1) + j := by omega
          rw [hst, hk]
          exact hz
        · rintro ⟨j, hj, hz⟩
          cases j with
          | zero =>
              exfalso
              apply h
              simpa [loopStateFrom] using hz
          | succ j =>
              refine ⟨j, by omega, ?_⟩
              have hst : loopStateFrom oracle st k (j + 1)
                  = loopStateFrom oracle (tuckWaveLists (loopBody st (oracle k)).1) (k + 1) j :=
                rfl
              have hk : k + (j + 1) = (k + 1) + j := by omega
              rw [hst, hk] at hz
              exact hz

/-- C3 (amended): the iterative declip loop of Transcoder::DoWork exits if
and only if some iteration's Update reports 0 remaining clipping
half-waves; the coordinator itself imposes no iteration cap (the only
10-cap is the per-wave ineffective_iteration_count inside Update), so
termination is not guaranteed for every input and encoder behaviour. -/
theorem c3_amended (src : Track) (oracle : Nat → List ℚ) (fuel : Nat) :
    (runLoop oracle fuel 0 src).isSome = true ↔
      ∃ k, k < fuel ∧ remainingAt src oracle k = 0 := by
  rw [runLoop_spec oracle fuel 0 src]
  constructor
  · rintro ⟨j, hj, hz⟩
    refine ⟨j, hj, ?_⟩
    rw [remainingAt]
    rw [Nat.zero_add] at hz
    exact hz
  · rintro ⟨j, hj, hz⟩
    refine ⟨j, hj, ?_⟩
    rw [Nat.zero_add]
    rw [remainingAt] at hz
    exact hz

/-- The loop state of the C3 counterexample: a mono track with one clipping
half-wave over frame 0 whose volume quotient is v. -/
def c3State (v : ℚ) : Track :=
  ⟨[6/5, -1/2], 48000, [⟨0, ChannelPlacement.frontLeft, [⟨0, 0, 1, 6/5, v, 0⟩]⟩]⟩

/-- The source track of the C3 counterexample (volume quotient 0, the state
after the fresh detection pass the coordinator runs before the loop). -/
def c3Src : Track := c3State 0

/-- An encode-decode oracle under which the loop never settles: every decoded
buffer clips with window peak 6/5 over the existing half-wave but detected
peak 3/2 over its own, larger half-wave, so Update always sees a changed
peak and resets the ineffective iteration count. -/
def c3Oracle : Nat → List ℚ := fun _ => [6/5, 3/2]

theorem c3_step (v : ℚ) : loopBody (c3State v) [6/5, 3/2] = (c3State v, 1) := by
  norm_num [loopBody, c3State, FindClippingHalfwaves, findChannelClippingHalfwaves,
    detGo, detStep, detInit, chSamples, tabulate, tabFrom, nth, fabs, detectedHalfwave,
    Integrate, IntegrateChannel, setPeakAtFirstIntersecting, intersects,
    Update, updateChannelsGo, updateChannelGo, updateHalfwave, windowScan,
    defaultChannel]

theorem c3_tuck (v : ℚ) (hv : v ≠ 0) : tuckWaveLists (c3State v) = c3State (6/5 * v) := by
  norm_num [tuckWaveLists, c3State, tuckedWaveState, updateAndReturnVolumeQuotient, fabs, hv]

theorem c3_tuck0 : tuckWaveLists (c3State 0) = c3State (6/5) := by
  norm_num [tuckWaveLists, c3State, tuckedWaveState, updateAndReturnVolumeQuotient, fabs]

theorem c3_stateFrom_shape :
    ∀ (j k : Nat) (v : ℚ), ∃ v2, loopStateFrom c3Oracle (c3State v) k j = c3State v2
  | 0, _, v => ⟨v, rfl⟩
  | j + 1, k, v => by
      have hst : loopStateFrom c3Oracle (c3State v) k (j + 1)
          = loopStateFrom c3Oracle
              (tuckWaveLists (loopBody (c3State v) (c3Oracle k)).1) (k + 1) j := rfl
      have hor : c3Oracle k = [6/5, 3/2] := rfl
      rw [hst, hor, c3_step v]
      by_cases hv : v = 0
      · subst hv
        rw [show tuckWaveLists (c3State 0, (1 : Nat)).1 = c3State (6/5) from c3_tuck0]
        exact c3_stateFrom_shape j (k + 1) (6/5)
      · rw [show tuckWaveLists (c3State v, (1 : Nat)).1 = c3State (6/5 * v) from c3_tuck v hv]
        exact c3_stateFrom_shape j (k + 1) (6/5 * v)

theorem c3_never (j : Nat) :
    (loopBody (loopStateFrom c3Oracle c3Src 0 j) (c3Oracle (0 + j))).2 = 1 := by
  obtain ⟨v2, hst⟩ := c3_stateFrom_shape j 0 0
  have hor : c3Oracle (0 + j) = [6/5, 3/2] := rfl
  rw [show c3Src = c3State 0 from rfl] at *
  rw [hst, hor, c3_step v2]

/-- C3 counterexample: on a concrete mono source track (whose half-wave list
is exactly what FindClippingHalfwaves produces on its samples) and a
concrete encode-decode oracle, the iterative declip loop is still running
after 12 iterations, contradicting the claimed fixed cap of 10 iterations;
Update keeps returning 1 forever because the integrated peak and the
re-measured peak always differ. -/
theorem c3_counterexample :
    runLoop c3Oracle 12 0 c3Src = none ∧
    (FindClippingHalfwaves
        ⟨[6/5, -1/2], 48000, [⟨0, ChannelPlacement.frontLeft, []⟩]⟩).channels
      = c3Src.channels := by
  constructor
  · cases hr : runLoop c3Oracle 12 0 c3Src with
    | none => rfl
    | some k =>
        exfalso
        have hs : (runLoop c3Oracle 12 0 c3Src).isSome = true := by rw [hr]; rfl
        obtain ⟨j, _, hz⟩ := (runLoop_spec c3Oracle 12 0 c3Src).mp hs
        rw [c3_never j] at hz
        exact one_ne_zero hz
  · norm_num [FindClippingHalfwaves, findChannelClippingHalfwaves, detGo, detStep, detInit,
      chSamples, tabulate, tabFrom, nth, fabs, detectedHalfwave, c3Src, c3State,
      defaultChannel]
